import Mathlib

/-!
# The batcher (`batcher.go`): a step semantics and its properties

The Go package keeps one `Batcher` object that is shared by four kinds of
goroutines: callers of `Run`, callers of `Flush`, one `batch` worker per
window and one `timer` per window.  The embedding below keeps the shared
memory of the package explicit (the `Batcher` fields, the heap of `myChannel`
objects, the heap of `done` channels and the heap of `future` channels) and
gives every goroutine a program counter.  One step of the semantics is one
goroutine executing the statements between two points at which it touches
shared memory or may block.

Conventions:
* a pointer is an index into the corresponding heap list, `none` is `nil`;
* a Go `error` is `Option Nat` (`none` is `nil`);
* `time.Sleep(b.timeout)` is abstracted: a sleeping timer may wake at any step;
* a run-time panic is recorded in `State.fault`; a panicking goroutine that is
  not recovered terminates the process, so no step is enabled afterwards;
* the statements a goroutine executes while it holds `b.lock` without blocking
  are one step: every access to shared memory made outside the lock (the reads
  of `b.submit` and `b.done` in `batch`, the receive on `input`) commutes with
  the statements inside such a section.
-/

namespace batcher

/-- A Go `error` value: `none` is `nil`, `some e` is a non-nil error. -/
abbrev Err := Option Nat

/-- An `interface{}` parameter handed to `Run`. -/
abbrev Param := Nat

/-- Run-time panics that the statements of `batcher.go` can raise. -/
inductive Fault
  | nilDereference
  | sendOnClosed
  | closeOfClosed
  | closeOfNil
deriving DecidableEq, Repr

/-- The struct `work` (lines 9-12): `future` points into the heap of `chan error`. -/
structure work where
  param : Param
  future : Nat
deriving DecidableEq, Repr

/-- The struct `myChannel` (lines 14-17): `C` is the content of the buffered
`chan *work`, `closed` tells whether `C` has been closed, `once` is the flag of
the `sync.Once`. -/
structure myChannel where
  C : List work
  closed : Bool
  once : Bool
deriving DecidableEq, Repr

/-- The capacity of `myChannel.C` (line 20: `make(chan *work, 4)`). -/
def capC : Nat := 4

/-- Function `newMyChannel` (lines 19-21). -/
def newMyChannel : myChannel := { C := [], closed := false, once := false }

/-- The builtin `close(mc.C)`: closing a closed channel panics. -/
def closeC (mc : myChannel) : Except Fault myChannel :=
  if mc.closed then .error .closeOfClosed else .ok { mc with closed := true }

/-- Method `SafeClose` on a non-nil receiver (lines 25-29): `once.Do` runs the
closure only when the flag is not yet set, and sets the flag. -/
def myChannel.SafeClose (mc : myChannel) : Except Fault myChannel :=
  if mc.once then .ok mc
  else
    match closeC mc with
    | .ok mc1 => .ok { mc1 with once := true }
    | .error e => .error e

/-- The call `p.SafeClose()` through a pointer `p` into the heap: selecting
`mc.once` through a nil pointer panics. -/
def SafeCloseAt (chans : List myChannel) (p : Option Nat) : Except Fault (List myChannel) :=
  match p with
  | none => .error .nilDereference
  | some c =>
    match chans[c]? with
    | none => .error .nilDereference
    | some mc =>
      match mc.SafeClose with
      | .ok mc1 => .ok (chans.set c mc1)
      | .error e => .error e

/-- A `chan error` made by `make(chan error, 1)` (line 69). -/
structure errChan where
  buf : List Err
  closed : Bool
deriving DecidableEq, Repr

/-- The struct `Batcher` (lines 32-40).  `lock` holds the index of the goroutine
that owns the mutex, `submit` points into the heap of `myChannel`, `done` into
the heap of `chan bool`. -/
structure Batcher where
  timeout : Nat
  prefilter : Option (Param → Err)
  lock : Option Nat
  submit : Option Nat
  done : Option Nat
  doWork : List Param → Err

/-- Function `New` (lines 46-51). -/
def New (timeout : Nat) (doWork : List Param → Err) : Batcher :=
  { timeout := timeout, prefilter := none, lock := none, submit := none, done := none,
    doWork := doWork }

/-- Method `Prefilter` (lines 82-84). -/
def Batcher.Prefilter (b : Batcher) (filter : Param → Err) : Batcher :=
  { b with prefilter := some filter }

/-- Lines 57-61 of `Run`: the error of the prefilter, `nil` when none is set. -/
def Batcher.filterErr (b : Batcher) (param : Param) : Err :=
  match b.prefilter with
  | none => none
  | some f => f param

/-- Program counters of the goroutines. -/
inductive Thread
  /-- `Run(param)` has been called; line 57 is next. -/
  | Run_entry (param : Param)
  /-- `Run` is at line 72 and waits for `b.lock` at line 87. -/
  | Run_submit (w : work)
  /-- `submitWork` holds the lock and is blocked at line 96 on a full buffer. -/
  | submitWork_send (w : work)
  /-- `Run` is blocked at line 74 on `<-w.future`. -/
  | Run_wait (future : Nat)
  /-- `Run` has returned `e`. -/
  | Run_return (e : Err)
  /-- `Flush()` has been called and waits for `b.lock` at line 134. -/
  | Flush_entry
  /-- `Flush` holds the lock and is blocked at line 141 on `<-b.done`. -/
  | Flush_wait (done : Option Nat)
  /-- `Flush` has returned. -/
  | Flush_return
  /-- The goroutine of `go b.batch()` exists; line 102 is next. -/
  | batch_entry
  /-- `batch` is at the `range` loop of line 106. -/
  | batch_range (input : Nat) (params : List Param) (futures : List Nat)
  /-- `batch` is in the loop of lines 113-116 with `futures` still to serve. -/
  | batch_deliver (ret : Err) (futures : List Nat)
  /-- `batch` is blocked at line 117 on `b.done <- true`. -/
  | batch_send (done : Option Nat)
  /-- `batch` is at line 118. -/
  | batch_close
  /-- `batch` has returned. -/
  | batch_return
  /-- `timer` sleeps at line 122. -/
  | timer_sleep
  /-- `timer` has returned. -/
  | timer_return
  /-- The goroutine has panicked. -/
  | panicked
deriving DecidableEq, Repr

/-- The state of the process: the batcher, the three heaps, the goroutines, the
trace of `doWork` invocations (invoking goroutine and argument) and the panic,
if any. -/
structure State where
  b : Batcher
  chans : List myChannel
  dones : List Bool
  futures : List errChan
  threads : List Thread
  calls : List (Nat × List Param)
  fault : Option Fault

/-- The process right after the batcher has been built. -/
def init (b : Batcher) : State :=
  { b := b, chans := [], dones := [], futures := [], threads := [], calls := [], fault := none }

/-- Goroutine `t` panics with `f`. -/
def State.panic (s : State) (t : Nat) (f : Fault) : State :=
  { s with fault := some f, threads := s.threads.set t .panicked }

/-- The deferred `b.lock.Unlock()`. -/
def State.unlock (s : State) : State :=
  { s with b := { s.b with lock := none } }

/-- Lines 57-70 of `Run`: prefilter, the zero-timeout path, or the creation of
the `work` with a fresh future. -/
def Run_entry (s : State) (t : Nat) (param : Param) : Option State :=
  match s.b.filterErr param with
  | some err => some { s with threads := s.threads.set t (.Run_return (some err)) }
  | none =>
    if s.b.timeout = 0 then
      some { s with calls := s.calls ++ [(t, [param])],
                    threads := s.threads.set t (.Run_return (s.b.doWork [param])) }
    else
      some { s with futures := s.futures ++ [{ buf := [], closed := false }],
                    threads := s.threads.set t (.Run_submit ⟨param, s.futures.length⟩) }

/-- Line 96 of `submitWork`, executed by the holder `t` of the lock:
`b.submit.C <- w`, then the deferred `Unlock` (which also runs when the send
panics).  Not enabled while the buffer is full. -/
def submitWork_send (s : State) (t : Nat) (w : work) : Option State :=
  match s.b.submit with
  | none => some (s.unlock.panic t .nilDereference)
  | some c =>
    match s.chans[c]? with
    | none => none
    | some mc =>
      if mc.closed then some (s.unlock.panic t .sendOnClosed)
      else if mc.C.length < capC then
        some { s with chans := s.chans.set c { mc with C := mc.C ++ [w] },
                      b := { s.b with lock := none },
                      threads := s.threads.set t (.Run_wait w.future) }
      else none

/-- Lines 90-94 of `submitWork`: open a window when there is none. -/
def openWindow (s : State) : State :=
  match s.b.submit with
  | some _ => s
  | none =>
    { s with b := { s.b with done := some s.dones.length, submit := some s.chans.length },
             dones := s.dones ++ [false],
             chans := s.chans ++ [newMyChannel],
             threads := s.threads ++ [.batch_entry] }

/-- Method `submitWork` (lines 86-97) from the acquisition of the lock: when the
send of line 96 cannot proceed the goroutine stays inside, holding the lock. -/
def submitWork (s : State) (t : Nat) (w : work) : Option State :=
  match s.b.lock with
  | some _ => none
  | none =>
    let s1 := openWindow s
    let s2 := { s1 with b := { s1.b with lock := some t } }
    match submitWork_send s2 t w with
    | some s3 => some s3
    | none => some { s2 with threads := s2.threads.set t (.submitWork_send w) }

/-- Line 74 of `Run`: `return <-w.future`. -/
def Run_wait (s : State) (t : Nat) (future : Nat) : Option State :=
  match s.futures[future]? with
  | none => none
  | some fc =>
    match fc.buf with
    | e :: rest =>
      some { s with futures := s.futures.set future { fc with buf := rest },
                    threads := s.threads.set t (.Run_return e) }
    | [] =>
      if fc.closed then some { s with threads := s.threads.set t (.Run_return none) }
      else none

/-- Lines 134-141 of `Flush` up to the blocking receive: lock, `SafeClose`,
`b.submit = nil`, evaluation of the operand `b.done`.  When `SafeClose` panics
the deferred `Unlock` runs, so the lock is free as it was before the call. -/
def Flush (s : State) (t : Nat) : Option State :=
  match s.b.lock with
  | some _ => none
  | none =>
    match SafeCloseAt s.chans s.b.submit with
    | .error f => some (s.panic t f)
    | .ok chans1 =>
      some { s with chans := chans1,
                    b := { s.b with lock := some t, submit := none },
                    threads := s.threads.set t (.Flush_wait s.b.done) }

/-- Line 141 of `Flush` on a closed channel: the receive yields the zero value,
then the deferred `Unlock` runs. -/
def Flush_wait (s : State) (t : Nat) (done : Option Nat) : Option State :=
  match done with
  | none => none
  | some d =>
    if s.dones[d]? = some true then
      some { s with b := { s.b with lock := none },
                    threads := s.threads.set t .Flush_return }
    else none

/-- The unbuffered channel `done`: the send of line 117 by `sender` meets the
receive of line 141 by `receiver`; `Flush` then runs its deferred `Unlock`. -/
def handoff (s : State) (sender receiver : Nat) : Option State :=
  match s.threads[sender]?, s.threads[receiver]? with
  | some (.batch_send (some d)), some (.Flush_wait (some d1)) =>
    if d = d1 ∧ s.dones[d]? = some false then
      some { s with b := { s.b with lock := none },
                    threads := (s.threads.set sender .batch_close).set receiver .Flush_return }
    else none
  | _, _ => none

/-- Lines 102-104 of `batch`: `input := b.submit.C` and `go b.timer()`. -/
def batch_entry (s : State) (t : Nat) : Option State :=
  match s.b.submit with
  | none => some (s.panic t .nilDereference)
  | some c =>
    some { s with threads := (s.threads.set t (.batch_range c [] [])) ++ [.timer_sleep] }

/-- Lines 106-111 of `batch`: one iteration of the `range` loop, or, when the
channel is closed and drained, the call `ret := b.doWork(params)`. -/
def batch_range (s : State) (t : Nat) (input : Nat) (params : List Param)
    (futures : List Nat) : Option State :=
  match s.chans[input]? with
  | none => none
  | some mc =>
    match mc.C with
    | w :: rest =>
      some { s with chans := s.chans.set input { mc with C := rest },
                    threads := s.threads.set t
                      (.batch_range input (params ++ [w.param]) (futures ++ [w.future])) }
    | [] =>
      if mc.closed then
        some { s with calls := s.calls ++ [(t, params)],
                      threads := s.threads.set t (.batch_deliver (s.b.doWork params) futures) }
      else none

/-- Lines 113-117 of `batch`: `future <- ret; close(future)` for the next
future, or, after the loop, the evaluation of the operand `b.done`. -/
def batch_deliver (s : State) (t : Nat) (ret : Err) (futures : List Nat) : Option State :=
  match futures with
  | [] => some { s with threads := s.threads.set t (.batch_send s.b.done) }
  | f :: rest =>
    match s.futures[f]? with
    | none => none
    | some fc =>
      if fc.closed then some (s.panic t .sendOnClosed)
      else if fc.buf.length < 1 then
        some { s with futures := s.futures.set f { buf := fc.buf ++ [ret], closed := true },
                      threads := s.threads.set t (.batch_deliver ret rest) }
      else none

/-- Line 117 of `batch` without a receiver: the send stays blocked, unless the
channel is closed, in which case it panics. -/
def batch_send (s : State) (t : Nat) (done : Option Nat) : Option State :=
  match done with
  | none => none
  | some d => if s.dones[d]? = some true then some (s.panic t .sendOnClosed) else none

/-- Line 118 of `batch`: `close(b.done)`. -/
def batch_close (s : State) (t : Nat) : Option State :=
  match s.b.done with
  | none => some (s.panic t .closeOfNil)
  | some d =>
    match s.dones[d]? with
    | none => none
    | some true => some (s.panic t .closeOfClosed)
    | some false =>
      some { s with dones := s.dones.set d true, threads := s.threads.set t .batch_return }

/-- Lines 124-129 of `timer`, after the sleep: lock, `SafeClose`,
`b.submit = nil`, unlock (also when `SafeClose` panics). -/
def timer (s : State) (t : Nat) : Option State :=
  match s.b.lock with
  | some _ => none
  | none =>
    match SafeCloseAt s.chans s.b.submit with
    | .error f => some (s.panic t f)
    | .ok chans1 =>
      some { s with chans := chans1,
                    b := { s.b with submit := none },
                    threads := s.threads.set t .timer_return }

/-- What happens next: a new caller arrives, a goroutine is scheduled for one
step, or a sender and a receiver meet on an unbuffered channel. -/
inductive Event
  | callRun (param : Param)
  | callFlush
  | sched (t : Nat)
  | meet (sender receiver : Nat)
deriving DecidableEq, Repr

/-- One step of goroutine `t` whose program counter is `th`. -/
def stepThread (s : State) (t : Nat) (th : Thread) : Option State :=
  match th with
  | .Run_entry param => Run_entry s t param
  | .Run_submit w => submitWork s t w
  | .submitWork_send w => submitWork_send s t w
  | .Run_wait future => Run_wait s t future
  | .Flush_entry => Flush s t
  | .Flush_wait done => Flush_wait s t done
  | .batch_entry => batch_entry s t
  | .batch_range input params futures => batch_range s t input params futures
  | .batch_deliver ret futures => batch_deliver s t ret futures
  | .batch_send done => batch_send s t done
  | .batch_close => batch_close s t
  | .timer_sleep => timer s t
  | .Run_return _ => none
  | .Flush_return => none
  | .batch_return => none
  | .timer_return => none
  | .panicked => none

/-- The step function of the process; `none` when the event is not enabled. -/
def step (s : State) (e : Event) : Option State :=
  match s.fault with
  | some _ => none
  | none =>
    match e with
    | .callRun param => some { s with threads := s.threads ++ [.Run_entry param] }
    | .callFlush => some { s with threads := s.threads ++ [.Flush_entry] }
    | .meet sender receiver => handoff s sender receiver
    | .sched t =>
      match s.threads[t]? with
      | none => none
      | some th => stepThread s t th

/-- Execution of a schedule. -/
def run (s : State) : List Event → Option State
  | [] => some s
  | e :: es =>
    match step s e with
    | none => none
    | some s1 => run s1 es

/-- The batchers a program can build: `New`, optionally followed by `Prefilter`. -/
def build (timeout : Nat) (doWork : List Param → Err) (filter : Option (Param → Err)) : Batcher :=
  match filter with
  | none => New timeout doWork
  | some f => (New timeout doWork).Prefilter f

/-- The states the process can be in. -/
def Reachable (s : State) : Prop :=
  ∃ timeout doWork filter es, run (init (build timeout doWork filter)) es = some s

/-- What the examples observe of a state. -/
structure View where
  lock : Option Nat
  submit : Option Nat
  done : Option Nat
  chans : List myChannel
  dones : List Bool
  futures : List errChan
  threads : List Thread
  calls : List (Nat × List Param)
  fault : Option Fault
deriving DecidableEq, Repr

/-- The observable part of a state. -/
def State.view (s : State) : View :=
  { lock := s.b.lock, submit := s.b.submit, done := s.b.done, chans := s.chans,
    dones := s.dones, futures := s.futures, threads := s.threads, calls := s.calls,
    fault := s.fault }


/-- A work function that always succeeds. -/
def okWork : List Param → Err := fun _ => none

/-! ## Invariants of the reachable states -/

/-- The window `b.submit` refers to, if any, is an unsealed `myChannel`; and a
`myChannel` is closed exactly when its `once` has fired. -/
def WindowInv (s : State) : Prop :=
  (∀ c, s.b.submit = some c →
      ∃ mc : myChannel, s.chans[c]? = some mc ∧ mc.closed = false ∧ mc.once = false) ∧
  (∀ (c : Nat) (mc : myChannel), s.chans[c]? = some mc → mc.closed = mc.once)

/-- The program counters at which a goroutine owns `b.lock`: blocked on the send
of line 96, or blocked on the receive of line 141. -/
def Thread.holdsLock : Thread → Bool
  | .submitWork_send _ => true
  | .Flush_wait _ => true
  | _ => false

/-- The mutex is owned exactly by the goroutine that is inside `submitWork` or
inside `Flush`. -/
def LockInv (s : State) : Prop :=
  ∀ t, s.b.lock = some t ↔ ∃ th, s.threads[t]? = some th ∧ th.holdsLock = true

/-- The futures a goroutine is responsible for: the one of the `work` it is
about to submit, or the ones a worker has collected and not yet served. -/
def Thread.held : Thread → List Nat
  | .Run_submit w => [w.future]
  | .submitWork_send w => [w.future]
  | .batch_range _ _ futures => futures
  | .batch_deliver _ futures => futures
  | _ => []

/-- How often future `f` is held by the goroutines `l`. -/
def heldByThreads (l : List Thread) (f : Nat) : Nat :=
  (l.map (fun th => th.held.count f)).sum

/-- How often future `f` sits in the buffers of the windows `l`. -/
def heldByChans (l : List myChannel) (f : Nat) : Nat :=
  (l.map (fun mc => (mc.C.map work.future).count f)).sum

/-- How often future `f` is referred to by a pending submission. -/
def owners (s : State) (f : Nat) : Nat :=
  heldByThreads s.threads f + heldByChans s.chans f

/-- A `chan error` as `make(chan error, 1)` returns it. -/
def freshFuture : errChan := { buf := [], closed := false }

/-- Every pending submission has a future of its own, and that future is still
empty and open. -/
def FreshInv (s : State) : Prop :=
  ∀ f, owners s f ≤ 1 ∧ (0 < owners s f → s.futures[f]? = some freshFuture)

/-- The configuration of the batcher: the fields no step assigns. -/
def SameConfig (s s1 : State) : Prop :=
  s1.b.timeout = s.b.timeout ∧ s1.b.doWork = s.b.doWork ∧ s1.b.prefilter = s.b.prefilter

/-- A goroutine blocked inside `submitWork` has a window to send on. -/
def SendInv (s : State) : Prop :=
  s.b.submit = none → ∀ (t : Nat) (w : work), s.threads[t]? ≠ some (.submitWork_send w)

/-- The program counters that exist when batching is disabled. -/
def Thread.zeroPath : Thread → Bool
  | .Run_entry _ => true
  | .Run_return _ => true
  | .Flush_entry => true
  | .panicked => true
  | _ => false

/-- With `timeout == 0` no window is ever opened, no worker or timer exists and
every invocation of `doWork` has a single-element batch. -/
def ZeroInv (s : State) : Prop :=
  s.b.submit = none ∧ s.chans = [] ∧
  (∀ (t : Nat) (th : Thread), s.threads[t]? = some th → th.zeroPath = true) ∧
  (∀ c ∈ s.calls, ∃ p : Param, c.2 = [p])

/-! ## Concrete executions -/

/-- A work function that fails with the size of the batch as its error code. -/
def failWork : List Param → Err := fun params => some params.length

/-- `Run(1)` has submitted to a new window; a concurrent `Flush` seals the window
before the goroutine of `go b.batch()` has executed its first statement. -/
def flushBeforeWorker : List Event :=
  [.callRun 1, .sched 0, .sched 0, .callFlush, .sched 2]

/-- `Run(1)`, the worker starts, `Flush` seals, the worker drains and signals,
`Flush` and `Run` return. -/
def runThenFlush : List Event :=
  [.callRun 1, .sched 0, .sched 0, .sched 1, .callFlush, .sched 3,
   .sched 1, .sched 1, .sched 1, .sched 1, .meet 1 3, .sched 1, .sched 0]

/-- The timer seals the window of `Run(1)` while its worker is still busy;
`Run(2)` opens a second window, `Flush` seals that one and waits. -/
def flushWhileEarlierWorkerRuns : List Event :=
  [.callRun 1, .sched 0, .sched 0, .sched 1, .sched 2,
   .callRun 2, .sched 3, .sched 3, .sched 4, .callFlush, .sched 6]

/-- Two `Run` calls share a window that its timer then seals. -/
def twoRunsSealed : List Event :=
  [.callRun 1, .callRun 2, .sched 0, .sched 1, .sched 0, .sched 1, .sched 2, .sched 3]

/-- The state `twoRunsSealed` leads to when the work function is `failWork`. -/
def sealedState : State :=
  (run (init (New 50 failWork)) twoRunsSealed).getD (init (New 50 failWork))

/-- The state in which `Flush` waits for the worker of the window of `Run(1)`. -/
def flushWaiting : State :=
  (run (init (New 50 okWork)) [.callRun 1, .sched 0, .sched 0, .sched 1, .callFlush, .sched 3]).getD
    (init (New 50 okWork))

/-- The claim that no caller waits for a future or for `done` while it owns
the lock of the batcher. -/
def NoWaitUnderLock (s : State) : Prop :=
  ∀ t, s.b.lock = some t →
    (∀ f, s.threads[t]? ≠ some (.Run_wait f)) ∧ (∀ d, s.threads[t]? ≠ some (.Flush_wait d))

/-- `Run(1)`, the timer seals the window, the worker drains it and `Run`
returns; the worker stays blocked on its send on `done`. -/
def runThenTimer : List Event :=
  [.callRun 1, .sched 0, .sched 0, .sched 1, .sched 2, .sched 1, .sched 1, .sched 1, .sched 0]

/-- A prefilter that rejects the parameter `0` with error `9`. -/
def rejectZero : Param → Err := fun p => if p = 0 then some 9 else none

/-- A caller has entered `Run(0)` on a batcher with the prefilter `rejectZero`. -/
def rejectState : State :=
  (run (init ((New 50 okWork).Prefilter rejectZero)) [.callRun 0]).getD (init (New 50 okWork))

/-- Two callers have entered `Run` on a batcher built with `New(0, failWork)`,
the first has returned. -/
def inlineState : State :=
  (run (init (build 0 failWork none)) [.callRun 5, .callRun 6, .sched 0]).getD
    (init (New 0 failWork))

/-- The state after `Run(1)` has submitted to a new window. -/
def windowOpen : State :=
  (run (init (New 50 okWork)) [.callRun 1, .sched 0, .sched 0]).getD (init (New 50 okWork))

/-- After `runThenFlush` the timer of the first window is still asleep.  `Run(2)`
opens a second window whose worker does not get to run before that timer
seals the window; `Run(3)` opens a third window, and only then the workers of
the second and of the third window execute line 102.  `Run(4)` joins the
third window, the two workers receive one submission each, a timer seals the
window and both workers call `doWork`. -/
def workerStartsLate : List Event :=
  runThenFlush ++
    [.callRun 2, .sched 4, .sched 4, .sched 2, .callRun 3, .sched 6, .sched 6,
     .sched 5, .sched 7, .callRun 4, .sched 10, .sched 10, .sched 5, .sched 7,
     .sched 8, .sched 5, .sched 7]

/-- A work function whose outcome depends on the batch: it fails with the sum
of the parameters as its error code. -/
def sumWork : List Param → Err := fun params => some params.sum

/-- The part of `workerStartsLate` up to the moment at which the submissions of
`Run(3)` and `Run(4)` sit in the third window and the workers of the second
and of the third window both range over that window. -/
def sharedWindow : List Event :=
  runThenFlush ++
    [.callRun 2, .sched 4, .sched 4, .sched 2, .callRun 3, .sched 6, .sched 6,
     .sched 5, .sched 7, .callRun 4, .sched 10, .sched 10]

/-! ## Reachability -/

theorem run_preserves (P : State → Prop)
    (hstep : ∀ s e s1, P s → step s e = some s1 → P s1) :
    ∀ es s s1, P s → run s es = some s1 → P s1 := by
  intro es
  induction es with
  | nil =>
    intro s s1 hP h
    simp only [run, Option.some.injEq] at h
    exact h ▸ hP
  | cons e es ih =>
    intro s s1 hP h
    simp only [run] at h
    split at h
    · exact absurd h (by simp)
    · rename_i s2 hs2
      exact ih s2 s1 (hstep s e s2 hP hs2) h

theorem reachable_induction (P : State → Prop)
    (h0 : ∀ timeout doWork filter, P (init (build timeout doWork filter)))
    (hstep : ∀ s e s1, P s → step s e = some s1 → P s1) :
    ∀ s, Reachable s → P s := by
  rintro s ⟨timeout, doWork, filter, es, h⟩
  exact run_preserves P hstep es _ s (h0 timeout doWork filter) h

theorem reachable_step {s s1 : State} {e : Event} (hs : Reachable s)
    (h : step s e = some s1) : Reachable s1 := by
  revert s1 e
  revert s
  intro s hs
  obtain ⟨timeout, doWork, filter, es, hr⟩ := hs
  intro s1 e h
  refine ⟨timeout, doWork, filter, es ++ [e], ?_⟩
  have key : ∀ (es : List Event) (a b : State), run a es = some b →
      run a (es ++ [e]) = step b e := by
    intro es
    induction es with
    | nil =>
      intro a b hab
      simp only [run, Option.some.injEq] at hab
      subst hab
      simp only [List.nil_append, run]
      cases step a e <;> rfl
    | cons x xs ih =>
      intro a b hab
      simp only [run, List.cons_append] at hab ⊢
      cases hx : step a x with
      | none => simp [hx] at hab
      | some a1 =>
        simp only [hx] at hab ⊢
        exact ih a1 b hab
  rw [key es _ s hr, h]


/-- To show that a property is preserved by every step it suffices to look at
the arrival of a caller, at one step of one goroutine, and at a rendezvous. -/
theorem step_preserves (P : State → Prop)
    (h_call : ∀ s th, P s → s.fault = none →
      ((∃ p, th = Thread.Run_entry p) ∨ th = Thread.Flush_entry) →
      P { s with threads := s.threads ++ [th] })
    (h_thread : ∀ s t th s1, P s → s.fault = none → s.threads[t]? = some th →
      stepThread s t th = some s1 → P s1)
    (h_meet : ∀ s a r s1, P s → s.fault = none → handoff s a r = some s1 → P s1) :
    ∀ s e s1, P s → step s e = some s1 → P s1 := by
  intro s e s1 hP h
  unfold step at h
  cases hf : s.fault with
  | some f => simp [hf] at h
  | none =>
    simp only [hf] at h
    cases e with
    | callRun p =>
      simp only [Option.some.injEq] at h
      subst h
      have h2 := h_call s _ hP hf (Or.inl ⟨p, rfl⟩)
      simp only [hf] at h2
      exact h2
    | callFlush =>
      simp only [Option.some.injEq] at h
      subst h
      have h2 := h_call s _ hP hf (Or.inr rfl)
      simp only [hf] at h2
      exact h2
    | meet a r => exact h_meet s a r s1 hP hf h
    | sched t =>
      simp only at h
      cases ht : s.threads[t]? with
      | none => simp [ht] at h
      | some th =>
        simp only [ht] at h
        exact h_thread s t th s1 hP hf ht h

/-! ## The window invariant -/

theorem windowInv_congr {s s1 : State} (hi : WindowInv s)
    (hsub : s1.b.submit = s.b.submit) (hch : s1.chans = s.chans) : WindowInv s1 := by
  unfold WindowInv at *
  rw [hsub, hch]
  exact hi

theorem windowInv_set {s s1 : State} (hi : WindowInv s) (hsub : s1.b.submit = s.b.submit)
    {c : Nat} {mc mc1 : myChannel} (hc : s.chans[c]? = some mc)
    (hch : s1.chans = s.chans.set c mc1)
    (h1 : mc1.closed = mc.closed) (h2 : mc1.once = mc.once) : WindowInv s1 := by
  obtain ⟨ha, hb⟩ := hi
  have hlt : c < s.chans.length := by
    rcases List.getElem?_eq_some.1 hc with ⟨h, _⟩
    exact h
  refine ⟨?_, ?_⟩
  · intro d hd
    rw [hsub] at hd
    obtain ⟨m, hm, hm1, hm2⟩ := ha d hd
    rw [hch, List.getElem?_set]
    by_cases hcd : c = d
    · subst hcd
      rw [hc] at hm
      cases hm
      exact ⟨mc1, by simp [hlt], by rw [h1, hm1], by rw [h2, hm2]⟩
    · exact ⟨m, by simp [hcd, hm], hm1, hm2⟩
  · intro d m hm
    rw [hch, List.getElem?_set] at hm
    by_cases hcd : c = d
    · subst hcd
      simp only [hlt, if_true, Option.some.injEq] at hm
      subst hm
      rw [h1, h2]
      exact hb c mc hc
    · simp only [hcd, if_false] at hm
      exact hb d m hm

theorem windowInv_openWindow {s : State} (hi : WindowInv s) : WindowInv (openWindow s) := by
  unfold openWindow
  cases hs : s.b.submit with
  | some c => simpa [hs] using hi
  | none =>
    simp only [hs]
    obtain ⟨_, hb⟩ := hi
    refine ⟨?_, ?_⟩
    · intro d hd
      simp only [Option.some.injEq] at hd
      subst hd
      exact ⟨newMyChannel, by simp, rfl, rfl⟩
    · intro d m hm
      simp only [List.getElem?_append] at hm
      split at hm
      · exact hb d m hm
      · rename_i hlt
        have : d - s.chans.length = 0 ∨ 0 < d - s.chans.length := Nat.eq_zero_or_pos _
        rcases this with h0 | h0
        · simp only [h0, List.getElem?_cons_zero, Option.some.injEq] at hm
          subst hm
          rfl
        · obtain ⟨k, hk⟩ := Nat.exists_eq_succ_of_ne_zero (Nat.pos_iff_ne_zero.1 h0)
          simp [hk] at hm

theorem safeClose_flags {mc mc1 : myChannel} (h : mc.SafeClose = .ok mc1)
    (hw : mc.closed = mc.once) : mc1.closed = true ∧ mc1.once = true ∧ mc1.C = mc.C := by
  unfold myChannel.SafeClose closeC at h
  cases ho : mc.once with
  | true =>
    simp only [ho, if_true, Except.ok.injEq] at h
    subst h
    exact ⟨by rw [hw, ho], ho, rfl⟩
  | false =>
    have hcl : mc.closed = false := by rw [hw, ho]
    simp only [ho, hcl, Bool.false_eq_true, if_false, Except.ok.injEq] at h
    subst h
    exact ⟨rfl, rfl, rfl⟩

theorem windowInv_seal {s s1 : State} (hi : WindowInv s) (hsub : s1.b.submit = none)
    (hch : SafeCloseAt s.chans s.b.submit = .ok s1.chans) : WindowInv s1 := by
  obtain ⟨_, hb⟩ := hi
  refine ⟨(by intro d hd; rw [hsub] at hd; cases hd), ?_⟩
  intro d m hm
  unfold SafeCloseAt at hch
  cases hs : s.b.submit with
  | none => simp [hs] at hch
  | some c =>
    simp only [hs] at hch
    cases hc : s.chans[c]? with
    | none => simp [hc] at hch
    | some mc =>
      simp only [hc] at hch
      cases hsc : mc.SafeClose with
      | error e => simp [hsc] at hch
      | ok mc1 =>
        simp only [hsc, Except.ok.injEq] at hch
        obtain ⟨f1, f2, _⟩ := safeClose_flags hsc (hb c mc hc)
        rw [← hch, List.getElem?_set] at hm
        by_cases hcd : c = d
        · subst hcd
          have hlt : c < s.chans.length := by
            rcases List.getElem?_eq_some.1 hc with ⟨h, _⟩
            exact h
          simp only [hlt, if_true, Option.some.injEq] at hm
          subst hm
          rw [f1, f2]
        · simp only [hcd, if_false] at hm
          exact hb d m hm

theorem windowInv_panic {s : State} (hi : WindowInv s) (t : Nat) (f : Fault) :
    WindowInv (s.panic t f) :=
  windowInv_congr hi rfl rfl

theorem windowInv_unlock {s : State} (hi : WindowInv s) : WindowInv s.unlock :=
  windowInv_congr hi rfl rfl

theorem windowInv_send {s s1 : State} {t : Nat} {w : work} (hi : WindowInv s)
    (h : submitWork_send s t w = some s1) : WindowInv s1 := by
  unfold submitWork_send at h
  cases hs : s.b.submit with
  | none =>
    simp only [hs, Option.some.injEq] at h
    subst h
    exact windowInv_panic (windowInv_unlock hi) _ _
  | some c =>
    simp only [hs] at h
    cases hc : s.chans[c]? with
    | none => simp [hc] at h
    | some mc =>
      simp only [hc] at h
      split at h
      · simp only [Option.some.injEq] at h
        subst h
        exact windowInv_panic (windowInv_unlock hi) _ _
      · split at h
        · simp only [Option.some.injEq] at h
          subst h
          exact windowInv_set hi (by simp [hs]) hc rfl rfl rfl
        · simp at h

theorem windowInv_submitWork {s s1 : State} {t : Nat} {w : work} (hi : WindowInv s)
    (h : submitWork s t w = some s1) : WindowInv s1 := by
  unfold submitWork at h
  cases hl : s.b.lock with
  | some u => simp [hl] at h
  | none =>
    simp only [hl] at h
    have h2 : WindowInv { openWindow s with b := { (openWindow s).b with lock := some t } } :=
      windowInv_congr (windowInv_openWindow hi) rfl rfl
    split at h
    · rename_i s3 hs3
      simp only [Option.some.injEq] at h
      subst h
      exact windowInv_send h2 hs3
    · simp only [Option.some.injEq] at h
      subst h
      exact windowInv_congr h2 rfl rfl

theorem windowInv_thread {s s1 : State} {t : Nat} {th : Thread} (hi : WindowInv s)
    (h : stepThread s t th = some s1) : WindowInv s1 := by
  cases th with
  | Run_entry p =>
    simp only [stepThread, Run_entry] at h
    split at h
    · simp only [Option.some.injEq] at h
      subst h
      exact windowInv_congr hi rfl rfl
    · split at h <;>
      · simp only [Option.some.injEq] at h
        subst h
        exact windowInv_congr hi rfl rfl
  | Run_submit w => exact windowInv_submitWork hi h
  | submitWork_send w => exact windowInv_send hi h
  | Run_wait f =>
    simp only [stepThread, Run_wait] at h
    split at h
    · simp at h
    · split at h
      · simp only [Option.some.injEq] at h
        subst h
        exact windowInv_congr hi rfl rfl
      · split at h
        · simp only [Option.some.injEq] at h
          subst h
          exact windowInv_congr hi rfl rfl
        · simp at h
  | Flush_entry =>
    simp only [stepThread, Flush] at h
    split at h
    · simp at h
    · split at h
      · simp only [Option.some.injEq] at h
        subst h
        exact windowInv_panic hi _ _
      · rename_i chans1 hcl
        simp only [Option.some.injEq] at h
        subst h
        exact windowInv_seal hi rfl hcl
  | Flush_wait d =>
    simp only [stepThread, Flush_wait] at h
    split at h
    · simp at h
    · split at h
      · simp only [Option.some.injEq] at h
        subst h
        exact windowInv_congr hi rfl rfl
      · simp at h
  | batch_entry =>
    simp only [stepThread, batch_entry] at h
    split at h <;>
    · simp only [Option.some.injEq] at h
      subst h
      exact windowInv_congr hi rfl rfl
  | batch_range input params futures =>
    simp only [stepThread, batch_range] at h
    split at h
    · simp at h
    · rename_i mc hmc
      split at h
      · simp only [Option.some.injEq] at h
        subst h
        exact windowInv_set hi rfl hmc rfl rfl rfl
      · split at h
        · simp only [Option.some.injEq] at h
          subst h
          exact windowInv_congr hi rfl rfl
        · simp at h
  | batch_deliver ret futures =>
    simp only [stepThread, batch_deliver] at h
    split at h
    · simp only [Option.some.injEq] at h
      subst h
      exact windowInv_congr hi rfl rfl
    · split at h
      · simp at h
      · split at h
        · simp only [Option.some.injEq] at h
          subst h
          exact windowInv_panic hi _ _
        · split at h
          · simp only [Option.some.injEq] at h
            subst h
            exact windowInv_congr hi rfl rfl
          · simp at h
  | batch_send d =>
    simp only [stepThread, batch_send] at h
    split at h
    · simp at h
    · split at h
      · simp only [Option.some.injEq] at h
        subst h
        exact windowInv_panic hi _ _
      · simp at h
  | batch_close =>
    simp only [stepThread, batch_close] at h
    split at h
    · simp only [Option.some.injEq] at h
      subst h
      exact windowInv_panic hi _ _
    · split at h
      · simp at h
      · simp only [Option.some.injEq] at h
        subst h
        exact windowInv_panic hi _ _
      · simp only [Option.some.injEq] at h
        subst h
        exact windowInv_congr hi rfl rfl
  | timer_sleep =>
    simp only [stepThread, timer] at h
    split at h
    · simp at h
    · split at h
      · simp only [Option.some.injEq] at h
        subst h
        exact windowInv_panic hi _ _
      · rename_i chans1 hcl
        simp only [Option.some.injEq] at h
        subst h
        exact windowInv_seal hi rfl hcl
  | Run_return e => simp [stepThread] at h
  | Flush_return => simp [stepThread] at h
  | batch_return => simp [stepThread] at h
  | timer_return => simp [stepThread] at h
  | panicked => simp [stepThread] at h

theorem windowInv_handoff {s s1 : State} {a r : Nat} (hi : WindowInv s)
    (h : handoff s a r = some s1) : WindowInv s1 := by
  unfold handoff at h
  split at h
  · split at h
    · simp only [Option.some.injEq] at h
      subst h
      exact windowInv_congr hi rfl rfl
    · simp at h
  · simp at h

theorem windowInv_init (timeout : Nat) (doWork : List Param → Err)
    (filter : Option (Param → Err)) : WindowInv (init (build timeout doWork filter)) := by
  refine ⟨?_, ?_⟩
  · intro c hc
    cases filter <;> simp [init, build, New, Batcher.Prefilter] at hc
  · intro c mc hc
    simp [init] at hc

theorem reachable_windowInv : ∀ s, Reachable s → WindowInv s := by
  apply reachable_induction WindowInv windowInv_init
  apply step_preserves WindowInv
  · intro s th hi _ _
    exact windowInv_congr hi rfl rfl
  · intro s t th s1 hi _ _ h
    exact windowInv_thread hi h
  · intro s a r s1 hi _ h
    exact windowInv_handoff hi h

/-! ## The lock invariant -/

theorem getElem?_update {α : Type} (l extra : List α) (t u : Nat) (x : α)
    (ht : t < l.length) :
    (l.set t x ++ extra)[u]? =
      if u = t then some x else if u < l.length then l[u]? else extra[u - l.length]? := by
  rw [List.getElem?_append, List.length_set, List.getElem?_set]
  by_cases hut : u = t
  · subst hut
    simp [ht]
  · have : ¬ t = u := fun h => hut h.symm
    simp [hut, this]

theorem lt_of_getElem? {α : Type} {l : List α} {t : Nat} {x : α} (h : l[t]? = some x) :
    t < l.length := by
  rcases List.getElem?_eq_some.1 h with ⟨h1, _⟩
  exact h1

theorem lockInv_update {s s1 : State} (hi : LockInv s) {t : Nat} {th : Thread}
    (ht : s.threads[t]? = some th) (th1 : Thread) (extra : List Thread)
    (hthreads : s1.threads = s.threads.set t th1 ++ extra)
    (hextra : ∀ x ∈ extra, x.holdsLock = false)
    (hcase : (th.holdsLock = false ∧ th1.holdsLock = false ∧ s1.b.lock = s.b.lock) ∨
      (th1.holdsLock = true ∧ s1.b.lock = some t ∧ (s.b.lock = none ∨ s.b.lock = some t)) ∨
      (th.holdsLock = true ∧ th1.holdsLock = false ∧ s1.b.lock = none)) : LockInv s1 := by
  have hlt := lt_of_getElem? ht
  intro u
  rw [hthreads, getElem?_update _ _ _ _ _ hlt]
  have hiu := hi u
  have hit := hi t
  by_cases hut : u = t
  · subst hut
    simp only [if_true, Option.some.injEq, exists_eq_left']
    rcases hcase with ⟨h1, h2, h3⟩ | ⟨h1, h2, h3⟩ | ⟨h1, h2, h3⟩
    · rw [h3, hiu, ht]
      simp [h1, h2]
    · simp [h1, h2]
    · simp [h2, h3]
  · simp only [hut, if_false]
    by_cases hul : u < s.threads.length
    · simp only [hul, if_true]
      rcases hcase with ⟨h1, h2, h3⟩ | ⟨h1, h2, h3⟩ | ⟨h1, h2, h3⟩
      · rw [h3]
        exact hiu
      · rw [h2]
        constructor
        · intro h
          simp only [Option.some.injEq] at h
          exact absurd h.symm hut
        · intro h
          have h4 := hiu.2 h
          rcases h3 with h3 | h3
          · rw [h3] at h4
            cases h4
          · rw [h3] at h4
            simp only [Option.some.injEq] at h4
            exact absurd h4.symm hut
      · rw [h3]
        constructor
        · intro h
          cases h
        · intro h
          have h4 := hiu.2 h
          have h5 := hit.2 ⟨th, ht, h1⟩
          rw [h5] at h4
          simp only [Option.some.injEq] at h4
          exact absurd h4.symm hut
    · simp only [hul, if_false]
      have hnone : s.threads[u]? = none := List.getElem?_eq_none (Nat.le_of_not_lt hul)
      have hnolock : s.b.lock ≠ some u := by
        intro h
        obtain ⟨x, hx, _⟩ := hiu.1 h
        rw [hnone] at hx
        cases hx
      have hex : ¬ ∃ x, extra[u - s.threads.length]? = some x ∧ x.holdsLock = true := by
        rintro ⟨x, hx, hx2⟩
        have := hextra x (List.getElem?_mem hx)
        rw [this] at hx2
        cases hx2
      constructor
      · intro h
        exfalso
        rcases hcase with ⟨h1, h2, h3⟩ | ⟨h1, h2, h3⟩ | ⟨h1, h2, h3⟩
        · rw [h3] at h
          exact hnolock h
        · rw [h2] at h
          simp only [Option.some.injEq] at h
          exact hut h.symm
        · rw [h3] at h
          cases h
      · intro h
        exact absurd h hex

theorem set_append_of_lt {α : Type} (l e : List α) (t : Nat) (x : α) (h : t < l.length) :
    (l ++ e).set t x = l.set t x ++ e := by
  induction l generalizing t with
  | nil => simp at h
  | cons a l ih =>
    cases t with
    | zero => rfl
    | succ n =>
      simp only [List.cons_append, List.set_cons_succ, List.cons.injEq, true_and]
      exact ih n (by simpa using h)

theorem lockInv_send {s s1 : State} {t : Nat} {w : work} (hi : LockInv s)
    (ht : s.threads[t]? = some (.submitWork_send w))
    (h : submitWork_send s t w = some s1) : LockInv s1 := by
  unfold submitWork_send at h
  split at h
  · simp only [Option.some.injEq] at h
    subst h
    exact lockInv_update hi ht .panicked [] (by simp [State.panic, State.unlock]) (by simp)
      (Or.inr (Or.inr ⟨rfl, rfl, rfl⟩))
  · split at h
    · simp at h
    · split at h
      · simp only [Option.some.injEq] at h
        subst h
        exact lockInv_update hi ht .panicked [] (by simp [State.panic, State.unlock]) (by simp)
          (Or.inr (Or.inr ⟨rfl, rfl, rfl⟩))
      · split at h
        · simp only [Option.some.injEq] at h
          subst h
          exact lockInv_update hi ht (.Run_wait w.future) [] (by simp) (by simp)
            (Or.inr (Or.inr ⟨rfl, rfl, rfl⟩))
        · simp at h

theorem openWindow_threads (s : State) :
    ∃ extra, (openWindow s).threads = s.threads ++ extra ∧
      (extra = [] ∨ extra = [Thread.batch_entry]) := by
  unfold openWindow
  split
  · exact ⟨[], by simp, Or.inl rfl⟩
  · exact ⟨[.batch_entry], rfl, Or.inr rfl⟩

theorem lockInv_submitWork {s s1 : State} {t : Nat} {w : work} (hi : LockInv s)
    (ht : s.threads[t]? = some (.Run_submit w))
    (h : submitWork s t w = some s1) : LockInv s1 := by
  unfold submitWork at h
  split at h
  · simp at h
  · rename_i hl
    obtain ⟨extra, hex, hex2⟩ := openWindow_threads s
    have hlt := lt_of_getElem? ht
    have hextra : ∀ x ∈ extra, x.holdsLock = false := by
      intro x hx
      rcases hex2 with h0 | h0
      · simp [h0] at hx
      · simp only [h0, List.mem_singleton] at hx
        subst hx
        rfl
    simp only at h
    split at h
    · rename_i s3 hs3
      simp only [Option.some.injEq] at h
      subst h
      unfold submitWork_send at hs3
      simp only at hs3
      split at hs3
      · simp only [Option.some.injEq] at hs3
        subst hs3
        refine lockInv_update hi ht .panicked extra ?_ hextra (Or.inl ⟨rfl, rfl, ?_⟩)
        · simp only [State.panic, State.unlock, hex]
          exact set_append_of_lt _ _ _ _ hlt
        · simp [State.panic, State.unlock, hl]
      · split at hs3
        · simp at hs3
        · split at hs3
          · simp only [Option.some.injEq] at hs3
            subst hs3
            refine lockInv_update hi ht .panicked extra ?_ hextra (Or.inl ⟨rfl, rfl, ?_⟩)
            · simp only [State.panic, State.unlock, hex]
              exact set_append_of_lt _ _ _ _ hlt
            · simp [State.panic, State.unlock, hl]
          · split at hs3
            · simp only [Option.some.injEq] at hs3
              subst hs3
              refine lockInv_update hi ht (.Run_wait w.future) extra ?_ hextra
                (Or.inl ⟨rfl, rfl, ?_⟩)
              · simp only [hex]
                exact set_append_of_lt _ _ _ _ hlt
              · simp [hl]
            · simp at hs3
    · simp only [Option.some.injEq] at h
      subst h
      refine lockInv_update hi ht (.submitWork_send w) extra ?_ hextra
        (Or.inr (Or.inl ⟨rfl, rfl, Or.inl hl⟩))
      simp only [hex]
      exact set_append_of_lt _ _ _ _ hlt

theorem lockInv_thread {s s1 : State} {t : Nat} {th : Thread} (hi : LockInv s)
    (ht : s.threads[t]? = some th) (h : stepThread s t th = some s1) : LockInv s1 := by
  cases th with
  | Run_entry p =>
    simp only [stepThread, Run_entry] at h
    split at h
    · rename_i err herr
      simp only [Option.some.injEq] at h
      subst h
      exact lockInv_update hi ht (.Run_return (some err)) [] (by simp) (by simp) (Or.inl ⟨rfl, rfl, rfl⟩)
    · rename_i herr
      split at h
      · rename_i htz
        simp only [Option.some.injEq] at h
        subst h
        exact lockInv_update hi ht (.Run_return (s.b.doWork [p])) [] (by simp) (by simp) (Or.inl ⟨rfl, rfl, rfl⟩)
      · rename_i htz
        simp only [Option.some.injEq] at h
        subst h
        exact lockInv_update hi ht (.Run_submit ⟨p, s.futures.length⟩) [] (by simp) (by simp) (Or.inl ⟨rfl, rfl, rfl⟩)
  | Run_submit w =>
    exact lockInv_submitWork hi ht h
  | submitWork_send w =>
    exact lockInv_send hi ht h
  | Run_wait f =>
    simp only [stepThread, Run_wait] at h
    split at h
    · simp at h
    · rename_i fc hfc
      split at h
      · rename_i e rest hbuf
        simp only [Option.some.injEq] at h
        subst h
        exact lockInv_update hi ht (.Run_return e) [] (by simp) (by simp) (Or.inl ⟨rfl, rfl, rfl⟩)
      · rename_i hbuf
        split at h
        · rename_i hcl
          simp only [Option.some.injEq] at h
          subst h
          exact lockInv_update hi ht (.Run_return none) [] (by simp) (by simp) (Or.inl ⟨rfl, rfl, rfl⟩)
        · simp at h
  | Flush_entry =>
    simp only [stepThread, Flush] at h
    split at h
    · simp at h
    · rename_i hl
      split at h
      · rename_i f hcl
        simp only [Option.some.injEq] at h
        subst h
        exact lockInv_update hi ht .panicked [] (by simp [State.panic]) (by simp) (Or.inl ⟨rfl, rfl, rfl⟩)
      · rename_i chans1 hcl
        simp only [Option.some.injEq] at h
        subst h
        exact lockInv_update hi ht (.Flush_wait s.b.done) [] (by simp) (by simp)
          (Or.inr (Or.inl ⟨rfl, rfl, Or.inl hl⟩))
  | Flush_wait d =>
    simp only [stepThread, Flush_wait] at h
    split at h
    · simp at h
    · rename_i d0
      split at h
      · rename_i hd
        simp only [Option.some.injEq] at h
        subst h
        exact lockInv_update hi ht .Flush_return [] (by simp) (by simp)
          (Or.inr (Or.inr ⟨rfl, rfl, rfl⟩))
      · simp at h
  | batch_entry =>
    simp only [stepThread, batch_entry] at h
    split at h
    · rename_i hsub
      simp only [Option.some.injEq] at h
      subst h
      exact lockInv_update hi ht .panicked [] (by simp [State.panic]) (by simp) (Or.inl ⟨rfl, rfl, rfl⟩)
    · rename_i c hsub
      simp only [Option.some.injEq] at h
      subst h
      exact lockInv_update hi ht (.batch_range c [] []) [.timer_sleep] (by simp)
        (by simp [Thread.holdsLock]) (Or.inl ⟨rfl, rfl, rfl⟩)
  | batch_range input params futures =>
    simp only [stepThread, batch_range] at h
    split at h
    · simp at h
    · rename_i mc hmc
      split at h
      · rename_i w rest hC
        simp only [Option.some.injEq] at h
        subst h
        exact lockInv_update hi ht (.batch_range input (params ++ [w.param]) (futures ++ [w.future])) [] (by simp) (by simp) (Or.inl ⟨rfl, rfl, rfl⟩)
      · rename_i hC
        split at h
        · rename_i hcl
          simp only [Option.some.injEq] at h
          subst h
          exact lockInv_update hi ht (.batch_deliver (s.b.doWork params) futures) [] (by simp) (by simp) (Or.inl ⟨rfl, rfl, rfl⟩)
        · simp at h
  | batch_deliver ret futures =>
    simp only [stepThread, batch_deliver] at h
    split at h
    · simp only [Option.some.injEq] at h
      subst h
      exact lockInv_update hi ht (.batch_send s.b.done) [] (by simp) (by simp) (Or.inl ⟨rfl, rfl, rfl⟩)
    · rename_i f rest
      split at h
      · simp at h
      · rename_i fc hfc
        split at h
        · rename_i hcl
          simp only [Option.some.injEq] at h
          subst h
          exact lockInv_update hi ht .panicked [] (by simp [State.panic]) (by simp) (Or.inl ⟨rfl, rfl, rfl⟩)
        · rename_i hcl
          split at h
          · rename_i hlen
            simp only [Option.some.injEq] at h
            subst h
            exact lockInv_update hi ht (.batch_deliver ret rest) [] (by simp) (by simp) (Or.inl ⟨rfl, rfl, rfl⟩)
          · simp at h
  | batch_send d =>
    simp only [stepThread, batch_send] at h
    split at h
    · simp at h
    · rename_i d0
      split at h
      · rename_i hd
        simp only [Option.some.injEq] at h
        subst h
        exact lockInv_update hi ht .panicked [] (by simp [State.panic]) (by simp) (Or.inl ⟨rfl, rfl, rfl⟩)
      · simp at h
  | batch_close =>
    simp only [stepThread, batch_close] at h
    split at h
    · rename_i hdn
      simp only [Option.some.injEq] at h
      subst h
      exact lockInv_update hi ht .panicked [] (by simp [State.panic]) (by simp) (Or.inl ⟨rfl, rfl, rfl⟩)
    · rename_i d hdn
      split at h
      · simp at h
      · rename_i hd
        simp only [Option.some.injEq] at h
        subst h
        exact lockInv_update hi ht .panicked [] (by simp [State.panic]) (by simp) (Or.inl ⟨rfl, rfl, rfl⟩)
      · rename_i hd
        simp only [Option.some.injEq] at h
        subst h
        exact lockInv_update hi ht .batch_return [] (by simp) (by simp) (Or.inl ⟨rfl, rfl, rfl⟩)
  | timer_sleep =>
    simp only [stepThread, timer] at h
    split at h
    · simp at h
    · rename_i hl
      split at h
      · rename_i f hcl
        simp only [Option.some.injEq] at h
        subst h
        exact lockInv_update hi ht .panicked [] (by simp [State.panic]) (by simp) (Or.inl ⟨rfl, rfl, rfl⟩)
      · rename_i chans1 hcl
        simp only [Option.some.injEq] at h
        subst h
        exact lockInv_update hi ht .timer_return [] (by simp) (by simp) (Or.inl ⟨rfl, rfl, rfl⟩)
  | Run_return e => simp [stepThread] at h
  | Flush_return => simp [stepThread] at h
  | batch_return => simp [stepThread] at h
  | timer_return => simp [stepThread] at h
  | panicked => simp [stepThread] at h

theorem lockInv_handoff {s s1 : State} {a r : Nat} (hi : LockInv s)
    (h : handoff s a r = some s1) : LockInv s1 := by
  unfold handoff at h
  split at h
  · rename_i d d1 ha hr
    split at h
    · simp only [Option.some.injEq] at h
      subst h
      have har : a ≠ r := by
        intro har
        subst har
        rw [ha] at hr
        cases hr
      have h1 : LockInv { s with threads := s.threads.set a .batch_close } :=
        lockInv_update hi ha .batch_close [] (by simp) (by simp) (Or.inl ⟨rfl, rfl, rfl⟩)
      have hr1 : ({ s with threads := s.threads.set a .batch_close } : State).threads[r]?
          = some (.Flush_wait (some d1)) := by
        simp only [List.getElem?_set, har, if_false]
        exact hr
      exact lockInv_update h1 hr1 .Flush_return [] (by simp) (by simp)
        (Or.inr (Or.inr ⟨rfl, rfl, rfl⟩))
    · simp at h
  · simp at h

theorem lockInv_init (timeout : Nat) (doWork : List Param → Err)
    (filter : Option (Param → Err)) : LockInv (init (build timeout doWork filter)) := by
  intro t
  cases filter <;> simp [init, build, New, Batcher.Prefilter]

theorem lockInv_call {s : State} (hi : LockInv s) (th : Thread)
    (hth : th.holdsLock = false) :
    LockInv { s with threads := s.threads ++ [th] } := by
  intro u
  have hiu := hi u
  simp only [List.getElem?_append]
  by_cases hul : u < s.threads.length
  · simp only [hul, if_true]
    exact hiu
  · simp only [hul, if_false]
    have hnone : s.threads[u]? = none := List.getElem?_eq_none (Nat.le_of_not_lt hul)
    constructor
    · intro h
      obtain ⟨x, hx, _⟩ := hiu.1 h
      rw [hnone] at hx
      cases hx
    · rintro ⟨x, hx, hx2⟩
      have := List.getElem?_mem hx
      simp only [List.mem_singleton] at this
      subst this
      rw [hth] at hx2
      cases hx2

theorem reachable_lockInv : ∀ s, Reachable s → LockInv s := by
  apply reachable_induction LockInv lockInv_init
  apply step_preserves LockInv
  · intro s th hi _ hth
    apply lockInv_call hi
    rcases hth with ⟨p, rfl⟩ | rfl <;> rfl
  · intro s t th s1 hi _ ht h
    exact lockInv_thread hi ht h
  · intro s a r s1 hi _ h
    exact lockInv_handoff hi h

/-! ## Futures of pending submissions are fresh and not shared -/

theorem sum_map_set {α : Type} (g : α → Nat) :
    ∀ (l : List α) (t : Nat) (x y : α), l[t]? = some x →
      ((l.set t y).map g).sum + g x = (l.map g).sum + g y := by
  intro l
  induction l with
  | nil =>
    intro t x y h
    simp at h
  | cons a l ih =>
    intro t x y h
    cases t with
    | zero =>
      simp only [List.getElem?_cons_zero, Option.some.injEq] at h
      subst h
      simp only [List.set_cons_zero, List.map_cons, List.sum_cons]
      omega
    | succ n =>
      simp only [List.getElem?_cons_succ] at h
      have := ih n x y h
      simp only [List.set_cons_succ, List.map_cons, List.sum_cons]
      omega

theorem sum_map_zero {α : Type} (g : α → Nat) (l : List α) (h : ∀ x ∈ l, g x = 0) :
    (l.map g).sum = 0 := by
  induction l with
  | nil => rfl
  | cons a l ih =>
    simp only [List.map_cons, List.sum_cons]
    rw [h a (List.mem_cons_self a l), ih (fun x hx => h x (List.mem_cons_of_mem a hx))]

theorem heldByThreads_update {l : List Thread} {t : Nat} {th : Thread}
    (ht : l[t]? = some th) (th1 : Thread) (extra : List Thread)
    (hextra : ∀ x ∈ extra, x.held = []) (f : Nat) :
    heldByThreads (l.set t th1 ++ extra) f + th.held.count f
      = heldByThreads l f + th1.held.count f := by
  unfold heldByThreads
  rw [List.map_append, List.sum_append]
  have h1 := sum_map_set (fun th => th.held.count f) l t th th1 ht
  have h2 : (extra.map (fun th => th.held.count f)).sum = 0 := by
    apply sum_map_zero
    intro x hx
    simp [hextra x hx]
  simp only at h1
  omega

theorem heldByChans_set {l : List myChannel} {c : Nat} {mc : myChannel}
    (hc : l[c]? = some mc) (mc1 : myChannel) (f : Nat) :
    heldByChans (l.set c mc1) f + (mc.C.map work.future).count f
      = heldByChans l f + (mc1.C.map work.future).count f := by
  unfold heldByChans
  exact sum_map_set (fun mc => (mc.C.map work.future).count f) l c mc mc1 hc

theorem heldByChans_new (l : List myChannel) (f : Nat) :
    heldByChans (l ++ [newMyChannel]) f = heldByChans l f := by
  unfold heldByChans
  simp [newMyChannel]

theorem heldByChans_safeClose {chans chans1 : List myChannel} {p : Option Nat}
    (h : SafeCloseAt chans p = .ok chans1) (hw : ∀ (c : Nat) (mc : myChannel),
      chans[c]? = some mc → mc.closed = mc.once) (f : Nat) :
    heldByChans chans1 f = heldByChans chans f := by
  unfold SafeCloseAt at h
  split at h
  · simp at h
  · rename_i c
    split at h
    · simp at h
    · rename_i mc hmc
      split at h
      · rename_i mc1 hsc
        simp only [Except.ok.injEq] at h
        subst h
        have h1 := heldByChans_set hmc mc1 f
        obtain ⟨_, _, hC⟩ := safeClose_flags hsc (hw c mc hmc)
        rw [hC] at h1
        omega
      · simp at h

/-- A step after which no future has more owners than before, and after which
the futures that still have an owner are untouched, keeps the invariant. -/
theorem freshInv_of {s s1 : State} (hi : FreshInv s)
    (h : ∀ f, (owners s1 f ≤ owners s f ∧
        (s.futures[f]? = some freshFuture → 0 < owners s1 f →
          s1.futures[f]? = some freshFuture)) ∨
      (owners s1 f ≤ 1 ∧ s1.futures[f]? = some freshFuture)) : FreshInv s1 := by
  intro f
  obtain ⟨h1, h2⟩ := hi f
  rcases h f with ⟨h3, h4⟩ | ⟨h3, h4⟩
  · refine ⟨Nat.le_trans h3 h1, ?_⟩
    intro hpos
    exact h4 (h2 (Nat.lt_of_lt_of_le hpos h3)) hpos
  · exact ⟨h3, fun _ => h4⟩

/-- The common case: the goroutine gives up futures or keeps them, the buffers
keep their content and the heap of futures is the same. -/
theorem freshInv_neutral {s s1 : State} (hi : FreshInv s) {t : Nat} {th : Thread}
    (ht : s.threads[t]? = some th) (th1 : Thread) (extra : List Thread)
    (hthreads : s1.threads = s.threads.set t th1 ++ extra)
    (hextra : ∀ x ∈ extra, x.held = [])
    (hheld : ∀ f, th1.held.count f ≤ th.held.count f)
    (hchans : ∀ f, heldByChans s1.chans f = heldByChans s.chans f)
    (hfut : s1.futures = s.futures) : FreshInv s1 := by
  apply freshInv_of hi
  intro f
  left
  have h1 := heldByThreads_update ht th1 extra hextra f
  have h2 := hheld f
  have h3 := hchans f
  refine ⟨?_, ?_⟩
  · unfold owners
    rw [hthreads]
    omega
  · intro h _
    rw [hfut]
    exact h

theorem freshInv_congr {s s1 : State} (hi : FreshInv s)
    (hown : ∀ f, owners s1 f = owners s f) (hfut : s1.futures = s.futures) : FreshInv s1 := by
  intro f
  rw [hown f, hfut]
  exact hi f

theorem owners_lt_length {s : State} (hi : FreshInv s) {f : Nat} (h : 0 < owners s f) :
    f < s.futures.length :=
  lt_of_getElem? ((hi f).2 h)

theorem freshInv_alloc {s : State} (hi : FreshInv s) {t : Nat} {th : Thread}
    (ht : s.threads[t]? = some th) (p : Param) :
    FreshInv { s with futures := s.futures ++ [{ buf := [], closed := false }],
                      threads := s.threads.set t (.Run_submit ⟨p, s.futures.length⟩) } := by
  apply freshInv_of hi
  intro f
  have h1 := heldByThreads_update ht (.Run_submit ⟨p, s.futures.length⟩) [] (by simp) f
  simp only [List.append_nil, Thread.held, List.count_singleton, beq_iff_eq] at h1
  by_cases hf : s.futures.length = f
  · right
    simp only [hf, if_true] at h1
    have h0 : owners s f = 0 := by
      by_contra hne
      have := owners_lt_length hi (Nat.pos_of_ne_zero hne)
      omega
    unfold owners at h0 ⊢
    refine ⟨?_, ?_⟩
    · simp only [hf]
      omega
    · simp only
      rw [← hf, List.getElem?_concat_length]
      rfl
  · left
    simp only [hf, if_false, Nat.add_zero] at h1
    refine ⟨?_, ?_⟩
    · unfold owners
      simp only
      omega
    · intro hfr _
      simp only
      rw [List.getElem?_append_left (lt_of_getElem? hfr)]
      exact hfr

theorem freshInv_send {s s1 : State} (hi : FreshInv s) {t c : Nat} {th : Thread} {w : work}
    {mc : myChannel} (ht : s.threads[t]? = some th) (hheld : th.held = [w.future])
    (hc : s.chans[c]? = some mc) (th1 : Thread) (hheld1 : th1.held = [])
    (hthreads : s1.threads = s.threads.set t th1)
    (hchans : s1.chans = s.chans.set c { mc with C := mc.C ++ [w] })
    (hfut : s1.futures = s.futures) : FreshInv s1 := by
  apply freshInv_congr hi _ hfut
  intro f
  have h1 := heldByThreads_update ht th1 [] (by simp) f
  have h2 := heldByChans_set hc { mc with C := mc.C ++ [w] } f
  simp only [List.append_nil, hheld, hheld1, List.count_nil, Nat.add_zero, List.map_append,
    List.map_cons, List.map_nil, List.count_append] at h1 h2
  unfold owners
  rw [hthreads, hchans]
  omega

theorem freshInv_recv {s s1 : State} (hi : FreshInv s) {t : Nat} {input : Nat}
    {params : List Param} {futures : List Nat} {w : work} {rest : List work} {mc : myChannel}
    (ht : s.threads[t]? = some (.batch_range input params futures))
    (hc : s.chans[input]? = some mc) (hC : mc.C = w :: rest)
    (hthreads : s1.threads = s.threads.set t
      (.batch_range input (params ++ [w.param]) (futures ++ [w.future])))
    (hchans : s1.chans = s.chans.set input { mc with C := rest })
    (hfut : s1.futures = s.futures) : FreshInv s1 := by
  apply freshInv_congr hi _ hfut
  intro f
  have h1 := heldByThreads_update ht
    (.batch_range input (params ++ [w.param]) (futures ++ [w.future])) [] (by simp) f
  have h2 := heldByChans_set hc { mc with C := rest } f
  simp only [List.append_nil, Thread.held, List.count_append, hC, List.map_cons,
    List.count_cons, List.count_nil, List.count_singleton] at h1 h2
  unfold owners
  rw [hthreads, hchans]
  omega

theorem freshInv_deliver {s s1 : State} (hi : FreshInv s) {t : Nat} {ret : Err} {f0 : Nat}
    {rest : List Nat} (ht : s.threads[t]? = some (.batch_deliver ret (f0 :: rest)))
    (x : errChan)
    (hthreads : s1.threads = s.threads.set t (.batch_deliver ret rest))
    (hchans : s1.chans = s.chans)
    (hfut : s1.futures = s.futures.set f0 x) : FreshInv s1 := by
  apply freshInv_of hi
  intro f
  left
  have h1 := heldByThreads_update ht (.batch_deliver ret rest) [] (by simp) f
  simp only [List.append_nil, Thread.held, List.count_cons, beq_iff_eq] at h1
  have h3 := (hi f).1
  unfold owners at h3 ⊢
  rw [hthreads, hchans]
  by_cases hf : f0 = f
  · simp only [hf, if_true] at h1
    refine ⟨by omega, ?_⟩
    intro _ hpos
    omega
  · simp only [hf, if_false, Nat.add_zero] at h1
    refine ⟨by omega, ?_⟩
    intro hfr _
    rw [hfut, List.getElem?_set_ne hf]
    exact hfr

theorem freshInv_read {s s1 : State} (hi : FreshInv s) {t : Nat} {th : Thread} {f0 : Nat}
    {fc : errChan} (ht : s.threads[t]? = some th) (hheld : th.held = [])
    (hfc : s.futures[f0]? = some fc) (hne : fc ≠ freshFuture) (th1 : Thread)
    (hheld1 : th1.held = []) (x : errChan)
    (hthreads : s1.threads = s.threads.set t th1)
    (hchans : s1.chans = s.chans)
    (hfut : s1.futures = s.futures.set f0 x) : FreshInv s1 := by
  apply freshInv_of hi
  intro f
  left
  have h1 := heldByThreads_update ht th1 [] (by simp) f
  simp only [List.append_nil, hheld, hheld1, List.count_nil, Nat.add_zero] at h1
  unfold owners
  rw [hthreads, hchans]
  refine ⟨by omega, ?_⟩
  intro hfr hpos
  by_cases hf : f0 = f
  · subst hf
    rw [hfc] at hfr
    simp only [Option.some.injEq] at hfr
    exact absurd hfr hne
  · rw [hfut, List.getElem?_set_ne hf]
    exact hfr

theorem freshInv_sendStep {s s1 : State} {t : Nat} {w : work} {th : Thread} (hi : FreshInv s)
    (ht : s.threads[t]? = some th) (hheld : th.held = [w.future])
    (h : submitWork_send s t w = some s1) : FreshInv s1 := by
  unfold submitWork_send at h
  split at h
  · simp only [Option.some.injEq] at h
    subst h
    exact freshInv_neutral hi ht .panicked [] (by simp [State.panic, State.unlock]) (by simp)
      (by intro f; simp [Thread.held]) (fun _ => rfl) rfl
  · split at h
    · simp at h
    · rename_i c hsub mc hmc
      split at h
      · simp only [Option.some.injEq] at h
        subst h
        exact freshInv_neutral hi ht .panicked [] (by simp [State.panic, State.unlock])
          (by simp) (by intro f; simp [Thread.held]) (fun _ => rfl) rfl
      · split at h
        · simp only [Option.some.injEq] at h
          subst h
          exact freshInv_send hi ht hheld hmc (.Run_wait w.future) rfl rfl rfl rfl
        · simp at h

theorem owners_openWindow (s : State) (f : Nat) : owners (openWindow s) f = owners s f := by
  unfold openWindow
  split
  · rfl
  · unfold owners
    simp only [heldByChans_new]
    unfold heldByThreads
    simp [Thread.held]

theorem openWindow_futures (s : State) : (openWindow s).futures = s.futures := by
  unfold openWindow
  split <;> rfl

theorem freshInv_submitWork {s s1 : State} {t : Nat} {w : work} (hi : FreshInv s)
    (ht : s.threads[t]? = some (.Run_submit w))
    (h : submitWork s t w = some s1) : FreshInv s1 := by
  unfold submitWork at h
  split at h
  · simp at h
  · simp only at h
    have h2 : FreshInv { openWindow s with b := { (openWindow s).b with lock := some t } } :=
      freshInv_congr hi (fun f => owners_openWindow s f) (openWindow_futures s)
    obtain ⟨extra, hex, _⟩ := openWindow_threads s
    have ht2 : ({ openWindow s with b := { (openWindow s).b with lock := some t } }
        : State).threads[t]? = some (.Run_submit w) := by
      simp only [hex]
      rw [List.getElem?_append_left (lt_of_getElem? ht)]
      exact ht
    split at h
    · rename_i s3 hs3
      simp only [Option.some.injEq] at h
      subst h
      exact freshInv_sendStep h2 ht2 rfl hs3
    · simp only [Option.some.injEq] at h
      subst h
      exact freshInv_neutral h2 ht2 (.submitWork_send w) [] (by simp) (by simp)
        (by intro f; simp [Thread.held]) (fun _ => rfl) rfl

theorem freshInv_thread {s s1 : State} {t : Nat} {th : Thread} (hi : FreshInv s) (hw : WindowInv s)
    (ht : s.threads[t]? = some th) (h : stepThread s t th = some s1) : FreshInv s1 := by
  cases th with
  | Run_entry p =>
    simp only [stepThread, Run_entry] at h
    split at h
    · rename_i err herr
      simp only [Option.some.injEq] at h
      subst h
      exact freshInv_neutral hi ht (.Run_return (some err)) [] (by simp) (by simp [Thread.held])
        (by intro f; simp [Thread.held]) (fun _ => rfl) rfl
    · rename_i herr
      split at h
      · rename_i htz
        simp only [Option.some.injEq] at h
        subst h
        exact freshInv_neutral hi ht (.Run_return (s.b.doWork [p])) [] (by simp) (by simp [Thread.held])
          (by intro f; simp [Thread.held]) (fun _ => rfl) rfl
      · rename_i htz
        simp only [Option.some.injEq] at h
        subst h
        exact freshInv_alloc hi ht p
  | Run_submit w =>
    exact freshInv_submitWork hi ht h
  | submitWork_send w =>
    exact freshInv_sendStep hi ht rfl h
  | Run_wait f =>
    simp only [stepThread, Run_wait] at h
    split at h
    · simp at h
    · rename_i fc hfc
      split at h
      · rename_i e rest hbuf
        simp only [Option.some.injEq] at h
        subst h
        refine freshInv_read hi ht rfl hfc ?_ (.Run_return e) rfl { fc with buf := rest } rfl rfl rfl
        intro hfr
        rw [hfr] at hbuf
        simp [freshFuture] at hbuf
      · rename_i hbuf
        split at h
        · rename_i hcl
          simp only [Option.some.injEq] at h
          subst h
          exact freshInv_neutral hi ht (.Run_return none) [] (by simp) (by simp [Thread.held])
            (by intro f; simp [Thread.held]) (fun _ => rfl) rfl
        · simp at h
  | Flush_entry =>
    simp only [stepThread, Flush] at h
    split at h
    · simp at h
    · rename_i hl
      split at h
      · rename_i f hcl
        simp only [Option.some.injEq] at h
        subst h
        exact freshInv_neutral hi ht .panicked [] (by simp [State.panic]) (by simp)
          (by intro f; simp [Thread.held]) (fun _ => rfl) rfl
      · rename_i chans1 hcl
        simp only [Option.some.injEq] at h
        subst h
        exact freshInv_neutral hi ht (.Flush_wait s.b.done) [] (by simp) (by simp)
          (by intro f; simp [Thread.held]) (fun f => heldByChans_safeClose hcl hw.2 f) rfl
  | Flush_wait d =>
    simp only [stepThread, Flush_wait] at h
    split at h
    · simp at h
    · rename_i d0
      split at h
      · rename_i hd
        simp only [Option.some.injEq] at h
        subst h
        exact freshInv_neutral hi ht .Flush_return [] (by simp) (by simp [Thread.held])
          (by intro f; simp [Thread.held]) (fun _ => rfl) rfl
      · simp at h
  | batch_entry =>
    simp only [stepThread, batch_entry] at h
    split at h
    · rename_i hsub
      simp only [Option.some.injEq] at h
      subst h
      exact freshInv_neutral hi ht .panicked [] (by simp [State.panic]) (by simp)
        (by intro f; simp [Thread.held]) (fun _ => rfl) rfl
    · rename_i c hsub
      simp only [Option.some.injEq] at h
      subst h
      exact freshInv_neutral hi ht (.batch_range c [] []) [.timer_sleep] (by simp) (by simp [Thread.held])
        (by intro f; simp [Thread.held]) (fun _ => rfl) rfl
  | batch_range input params futures =>
    simp only [stepThread, batch_range] at h
    split at h
    · simp at h
    · rename_i mc hmc
      split at h
      · rename_i w rest hC
        simp only [Option.some.injEq] at h
        subst h
        exact freshInv_recv hi ht hmc hC rfl rfl rfl
      · rename_i hC
        split at h
        · rename_i hcl
          simp only [Option.some.injEq] at h
          subst h
          exact freshInv_neutral hi ht (.batch_deliver (s.b.doWork params) futures) [] (by simp) (by simp [Thread.held])
            (by intro f; simp [Thread.held]) (fun _ => rfl) rfl
        · simp at h
  | batch_deliver ret futures =>
    simp only [stepThread, batch_deliver] at h
    split at h
    · simp only [Option.some.injEq] at h
      subst h
      exact freshInv_neutral hi ht (.batch_send s.b.done) [] (by simp) (by simp [Thread.held])
        (by intro f; simp [Thread.held]) (fun _ => rfl) rfl
    · rename_i f rest
      split at h
      · simp at h
      · rename_i fc hfc
        split at h
        · rename_i hcl
          simp only [Option.some.injEq] at h
          subst h
          exact freshInv_neutral hi ht .panicked [] (by simp [State.panic]) (by simp)
            (by intro f; simp [Thread.held]) (fun _ => rfl) rfl
        · rename_i hcl
          split at h
          · rename_i hlen
            simp only [Option.some.injEq] at h
            subst h
            exact freshInv_deliver hi ht { buf := fc.buf ++ [ret], closed := true } rfl rfl rfl
          · simp at h
  | batch_send d =>
    simp only [stepThread, batch_send] at h
    split at h
    · simp at h
    · rename_i d0
      split at h
      · rename_i hd
        simp only [Option.some.injEq] at h
        subst h
        exact freshInv_neutral hi ht .panicked [] (by simp [State.panic]) (by simp)
          (by intro f; simp [Thread.held]) (fun _ => rfl) rfl
      · simp at h
  | batch_close =>
    simp only [stepThread, batch_close] at h
    split at h
    · rename_i hdn
      simp only [Option.some.injEq] at h
      subst h
      exact freshInv_neutral hi ht .panicked [] (by simp [State.panic]) (by simp)
        (by intro f; simp [Thread.held]) (fun _ => rfl) rfl
    · rename_i d hdn
      split at h
      · simp at h
      · rename_i hd
        simp only [Option.some.injEq] at h
        subst h
        exact freshInv_neutral hi ht .panicked [] (by simp [State.panic]) (by simp)
          (by intro f; simp [Thread.held]) (fun _ => rfl) rfl
      · rename_i hd
        simp only [Option.some.injEq] at h
        subst h
        exact freshInv_neutral hi ht .batch_return [] (by simp) (by simp [Thread.held])
          (by intro f; simp [Thread.held]) (fun _ => rfl) rfl
  | timer_sleep =>
    simp only [stepThread, timer] at h
    split at h
    · simp at h
    · rename_i hl
      split at h
      · rename_i f hcl
        simp only [Option.some.injEq] at h
        subst h
        exact freshInv_neutral hi ht .panicked [] (by simp [State.panic]) (by simp)
          (by intro f; simp [Thread.held]) (fun _ => rfl) rfl
      · rename_i chans1 hcl
        simp only [Option.some.injEq] at h
        subst h
        exact freshInv_neutral hi ht .timer_return [] (by simp) (by simp)
          (by intro f; simp [Thread.held]) (fun f => heldByChans_safeClose hcl hw.2 f) rfl
  | Run_return e => simp [stepThread] at h
  | Flush_return => simp [stepThread] at h
  | batch_return => simp [stepThread] at h
  | timer_return => simp [stepThread] at h
  | panicked => simp [stepThread] at h

theorem freshInv_handoff {s s1 : State} {a r : Nat} (hi : FreshInv s)
    (h : handoff s a r = some s1) : FreshInv s1 := by
  unfold handoff at h
  split at h
  · rename_i d d1 ha hr
    split at h
    · simp only [Option.some.injEq] at h
      subst h
      have har : a ≠ r := by
        intro har
        subst har
        rw [ha] at hr
        cases hr
      have h1 : FreshInv { s with threads := s.threads.set a .batch_close } :=
        freshInv_neutral hi ha .batch_close [] (by simp) (by simp)
          (by intro f; simp [Thread.held]) (fun _ => rfl) rfl
      have hr1 : ({ s with threads := s.threads.set a .batch_close } : State).threads[r]?
          = some (.Flush_wait (some d1)) := by
        simp only [List.getElem?_set, har, if_false]
        exact hr
      exact freshInv_neutral h1 hr1 .Flush_return [] (by simp) (by simp)
        (by intro f; simp [Thread.held]) (fun _ => rfl) rfl
    · simp at h
  · simp at h

theorem freshInv_init (timeout : Nat) (doWork : List Param → Err)
    (filter : Option (Param → Err)) : FreshInv (init (build timeout doWork filter)) := by
  intro f
  simp [init, owners, heldByThreads, heldByChans]

theorem freshInv_call {s : State} (hi : FreshInv s) (th : Thread) (hth : th.held = []) :
    FreshInv { s with threads := s.threads ++ [th] } := by
  refine freshInv_congr hi ?_ rfl
  intro f
  unfold owners heldByThreads
  simp [hth]

theorem reachable_freshInv : ∀ s, Reachable s → FreshInv s := by
  intro s hs
  have key : WindowInv s ∧ FreshInv s := by
    refine reachable_induction (fun s => WindowInv s ∧ FreshInv s) ?_ ?_ s hs
    · intro timeout doWork filter
      exact ⟨windowInv_init timeout doWork filter, freshInv_init timeout doWork filter⟩
    · apply step_preserves (fun s => WindowInv s ∧ FreshInv s)
      · intro s th hi _ hth
        refine ⟨windowInv_congr hi.1 rfl rfl, freshInv_call hi.2 th ?_⟩
        rcases hth with ⟨p, rfl⟩ | rfl <;> rfl
      · intro s t th s1 hi _ ht h
        exact ⟨windowInv_thread hi.1 h, freshInv_thread hi.2 hi.1 ht h⟩
      · intro s a r s1 hi _ h
        exact ⟨windowInv_handoff hi.1 h, freshInv_handoff hi.2 h⟩
  exact key.2

/-! ## The worker: one call of `doWork`, one result for every future -/

theorem set_same {α : Type} :
    ∀ (l : List α) (t : Nat) (x : α), l[t]? = some x → l.set t x = l := by
  intro l
  induction l with
  | nil =>
    intro t x h
    simp at h
  | cons a l ih =>
    intro t x h
    cases t with
    | zero =>
      simp only [List.getElem?_cons_zero, Option.some.injEq] at h
      subst h
      rfl
    | succ n =>
      simp only [List.getElem?_cons_succ] at h
      simp only [List.set_cons_succ, ih n x h]

theorem step_sched {s : State} {t : Nat} {th : Thread} (hf : s.fault = none)
    (ht : s.threads[t]? = some th) : step s (.sched t) = stepThread s t th := by
  unfold step
  simp only [hf, ht]

theorem count_le_heldByThreads {l : List Thread} {t : Nat} {th : Thread}
    (ht : l[t]? = some th) (f : Nat) : th.held.count f ≤ heldByThreads l f := by
  have h := heldByThreads_update ht .panicked [] (by simp) f
  have hp : Thread.panicked.held.count f = 0 := rfl
  rw [hp] at h
  omega

/-- The loop of lines 113-116, run without interruption: every future of the
list receives `ret` and is closed, no other future changes. -/
theorem deliver_run (t : Nat) (ret : Err) :
    ∀ (futures : List Nat) (s : State), s.fault = none →
      s.threads[t]? = some (.batch_deliver ret futures) →
      futures.Nodup → (∀ f ∈ futures, s.futures[f]? = some freshFuture) →
      ∃ s1, run s (List.replicate futures.length (.sched t)) = some s1 ∧
        s1.fault = none ∧ s1.calls = s.calls ∧ s1.b = s.b ∧ s1.chans = s.chans ∧
        s1.dones = s.dones ∧
        s1.threads = s.threads.set t (.batch_deliver ret []) ∧
        (∀ f ∈ futures, s1.futures[f]? = some { buf := [ret], closed := true }) ∧
        (∀ f, f ∉ futures → s1.futures[f]? = s.futures[f]?) := by
  intro futures
  induction futures with
  | nil =>
    intro s hf ht _ _
    refine ⟨s, rfl, hf, rfl, rfl, rfl, rfl, ?_, ?_, ?_⟩
    · exact (set_same _ _ _ ht).symm
    · intro f hfm
      cases hfm
    · intro f _
      rfl
  | cons f0 rest ih =>
    intro s hf ht hnd hfresh
    have hf0 : s.futures[f0]? = some freshFuture := hfresh f0 (List.mem_cons_self _ _)
    have hlt := lt_of_getElem? ht
    have hlt0 := lt_of_getElem? hf0
    have hstep : step s (.sched t) = some
        { s with futures := s.futures.set f0 { buf := [ret], closed := true },
                 threads := s.threads.set t (.batch_deliver ret rest) } := by
      rw [step_sched hf ht]
      simp [stepThread, batch_deliver, hf0, freshFuture]
    obtain ⟨hnot, hnd1⟩ := List.nodup_cons.1 hnd
    obtain ⟨s1, h1, h2, h3, h4, h5, h6, h7, h8, h9⟩ := ih
      { s with futures := s.futures.set f0 { buf := [ret], closed := true },
               threads := s.threads.set t (.batch_deliver ret rest) } hf
      (by simp [hlt]) hnd1
      (by
        intro f hfm
        have hne : f0 ≠ f := fun h => hnot (h ▸ hfm)
        simp only [List.getElem?_set_ne hne]
        exact hfresh f (List.mem_cons_of_mem _ hfm))
    refine ⟨s1, ?_, h2, h3, h4, h5, h6, ?_, ?_, ?_⟩
    · simp only [List.length_cons, List.replicate_succ, run, hstep]
      exact h1
    · rw [h7]
      simp
    · intro f hfm
      rcases List.mem_cons.1 hfm with hfe | hfr
      · subst hfe
        rw [h9 f hnot]
        simp [hlt0]
      · exact h8 f hfr
    · intro f hfm
      have hne : f0 ≠ f := fun h => hfm (h ▸ List.mem_cons_self _ _)
      have hnr : f ∉ rest := fun h => hfm (List.mem_cons_of_mem _ h)
      rw [h9 f hnr]
      simp only [List.getElem?_set_ne hne]

/-! ## The configuration is never assigned -/

theorem sameConfig_send {s s1 : State} {t : Nat} {w : work}
    (h : submitWork_send s t w = some s1) : SameConfig s s1 := by
  unfold submitWork_send at h
  split at h
  · simp only [Option.some.injEq] at h
    subst h
    exact ⟨rfl, rfl, rfl⟩
  · split at h
    · simp at h
    · split at h
      · simp only [Option.some.injEq] at h
        subst h
        exact ⟨rfl, rfl, rfl⟩
      · split at h
        · simp only [Option.some.injEq] at h
          subst h
          exact ⟨rfl, rfl, rfl⟩
        · simp at h

theorem sameConfig_openWindow (s : State) : SameConfig s (openWindow s) := by
  unfold openWindow
  split <;> exact ⟨rfl, rfl, rfl⟩

theorem sameConfig_submitWork {s s1 : State} {t : Nat} {w : work}
    (h : submitWork s t w = some s1) : SameConfig s s1 := by
  unfold submitWork at h
  split at h
  · simp at h
  · simp only at h
    obtain ⟨c1, c2, c3⟩ := sameConfig_openWindow s
    split at h
    · rename_i s3 hs3
      simp only [Option.some.injEq] at h
      subst h
      obtain ⟨d1, d2, d3⟩ := sameConfig_send hs3
      exact ⟨d1.trans c1, d2.trans c2, d3.trans c3⟩
    · simp only [Option.some.injEq] at h
      subst h
      exact ⟨c1, c2, c3⟩

theorem sameConfig_thread {s s1 : State} {t : Nat} {th : Thread}
    (h : stepThread s t th = some s1) : SameConfig s s1 := by
  cases th with
  | Run_entry p =>
    simp only [stepThread, Run_entry] at h
    split at h
    · rename_i err herr
      simp only [Option.some.injEq] at h
      subst h
      exact ⟨rfl, rfl, rfl⟩
    · rename_i herr
      split at h
      · rename_i htz
        simp only [Option.some.injEq] at h
        subst h
        exact ⟨rfl, rfl, rfl⟩
      · rename_i htz
        simp only [Option.some.injEq] at h
        subst h
        exact ⟨rfl, rfl, rfl⟩
  | Run_submit w =>
    exact sameConfig_submitWork h
  | submitWork_send w =>
    exact sameConfig_send h
  | Run_wait f =>
    simp only [stepThread, Run_wait] at h
    split at h
    · simp at h
    · rename_i fc hfc
      split at h
      · rename_i e rest hbuf
        simp only [Option.some.injEq] at h
        subst h
        exact ⟨rfl, rfl, rfl⟩
      · rename_i hbuf
        split at h
        · rename_i hcl
          simp only [Option.some.injEq] at h
          subst h
          exact ⟨rfl, rfl, rfl⟩
        · simp at h
  | Flush_entry =>
    simp only [stepThread, Flush] at h
    split at h
    · simp at h
    · rename_i hl
      split at h
      · rename_i f hcl
        simp only [Option.some.injEq] at h
        subst h
        exact ⟨rfl, rfl, rfl⟩
      · rename_i chans1 hcl
        simp only [Option.some.injEq] at h
        subst h
        exact ⟨rfl, rfl, rfl⟩
  | Flush_wait d =>
    simp only [stepThread, Flush_wait] at h
    split at h
    · simp at h
    · rename_i d0
      split at h
      · rename_i hd
        simp only [Option.some.injEq] at h
        subst h
        exact ⟨rfl, rfl, rfl⟩
      · simp at h
  | batch_entry =>
    simp only [stepThread, batch_entry] at h
    split at h
    · rename_i hsub
      simp only [Option.some.injEq] at h
      subst h
      exact ⟨rfl, rfl, rfl⟩
    · rename_i c hsub
      simp only [Option.some.injEq] at h
      subst h
      exact ⟨rfl, rfl, rfl⟩
  | batch_range input params futures =>
    simp only [stepThread, batch_range] at h
    split at h
    · simp at h
    · rename_i mc hmc
      split at h
      · rename_i w rest hC
        simp only [Option.some.injEq] at h
        subst h
        exact ⟨rfl, rfl, rfl⟩
      · rename_i hC
        split at h
        · rename_i hcl
          simp only [Option.some.injEq] at h
          subst h
          exact ⟨rfl, rfl, rfl⟩
        · simp at h
  | batch_deliver ret futures =>
    simp only [stepThread, batch_deliver] at h
    split at h
    · simp only [Option.some.injEq] at h
      subst h
      exact ⟨rfl, rfl, rfl⟩
    · rename_i f rest
      split at h
      · simp at h
      · rename_i fc hfc
        split at h
        · rename_i hcl
          simp only [Option.some.injEq] at h
          subst h
          exact ⟨rfl, rfl, rfl⟩
        · rename_i hcl
          split at h
          · rename_i hlen
            simp only [Option.some.injEq] at h
            subst h
            exact ⟨rfl, rfl, rfl⟩
          · simp at h
  | batch_send d =>
    simp only [stepThread, batch_send] at h
    split at h
    · simp at h
    · rename_i d0
      split at h
      · rename_i hd
        simp only [Option.some.injEq] at h
        subst h
        exact ⟨rfl, rfl, rfl⟩
      · simp at h
  | batch_close =>
    simp only [stepThread, batch_close] at h
    split at h
    · rename_i hdn
      simp only [Option.some.injEq] at h
      subst h
      exact ⟨rfl, rfl, rfl⟩
    · rename_i d hdn
      split at h
      · simp at h
      · rename_i hd
        simp only [Option.some.injEq] at h
        subst h
        exact ⟨rfl, rfl, rfl⟩
      · rename_i hd
        simp only [Option.some.injEq] at h
        subst h
        exact ⟨rfl, rfl, rfl⟩
  | timer_sleep =>
    simp only [stepThread, timer] at h
    split at h
    · simp at h
    · rename_i hl
      split at h
      · rename_i f hcl
        simp only [Option.some.injEq] at h
        subst h
        exact ⟨rfl, rfl, rfl⟩
      · rename_i chans1 hcl
        simp only [Option.some.injEq] at h
        subst h
        exact ⟨rfl, rfl, rfl⟩
  | Run_return e => simp [stepThread] at h
  | Flush_return => simp [stepThread] at h
  | batch_return => simp [stepThread] at h
  | timer_return => simp [stepThread] at h
  | panicked => simp [stepThread] at h

theorem sameConfig_step {s s1 : State} {e : Event} (h : step s e = some s1) :
    SameConfig s s1 := by
  refine step_preserves (fun x => SameConfig s x) ?_ ?_ ?_ s e s1 ⟨rfl, rfl, rfl⟩ h
  · intro x th hx _ _
    exact hx
  · intro x t th x1 hx _ _ hstep
    obtain ⟨c1, c2, c3⟩ := hx
    obtain ⟨d1, d2, d3⟩ := sameConfig_thread hstep
    exact ⟨d1.trans c1, d2.trans c2, d3.trans c3⟩
  · intro x a r x1 hx _ hstep
    unfold handoff at hstep
    split at hstep
    · split at hstep
      · simp only [Option.some.injEq] at hstep
        subst hstep
        exact hx
      · simp at hstep
    · simp at hstep

theorem sameConfig_run {s s1 : State} {es : List Event} (h : run s es = some s1) :
    SameConfig s s1 :=
  run_preserves (fun x => SameConfig s x)
    (fun x e x1 hx hstep => by
      obtain ⟨c1, c2, c3⟩ := hx
      obtain ⟨d1, d2, d3⟩ := sameConfig_step hstep
      exact ⟨d1.trans c1, d2.trans c2, d3.trans c3⟩)
    es s s1 ⟨rfl, rfl, rfl⟩ h

/-! ## A goroutine blocked inside `submitWork` has a window -/

theorem sendInv_keep {s s1 : State} (hi : SendInv s) {t : Nat} {th : Thread}
    (ht : s.threads[t]? = some th) (th1 : Thread) (extra : List Thread)
    (hthreads : s1.threads = s.threads.set t th1 ++ extra)
    (hextra : ∀ x ∈ extra, ∀ w, x ≠ Thread.submitWork_send w)
    (hsub : s1.b.submit = none →
      s.b.submit = none ∧ ∀ w, th1 ≠ Thread.submitWork_send w) : SendInv s1 := by
  intro h1 u w hu
  obtain ⟨h2, h3⟩ := hsub h1
  rw [hthreads, getElem?_update _ _ _ _ _ (lt_of_getElem? ht)] at hu
  by_cases hut : u = t
  · simp only [hut, if_true, Option.some.injEq] at hu
    exact h3 w hu
  · simp only [hut, if_false] at hu
    split at hu
    · exact hi h2 u w hu
    · exact hextra _ (List.getElem?_mem hu) w rfl

theorem sendInv_seal {s s1 : State} (hl : LockInv s) (hlock : s.b.lock = none) {t : Nat}
    {th : Thread} (ht : s.threads[t]? = some th) (th1 : Thread) (extra : List Thread)
    (hthreads : s1.threads = s.threads.set t th1 ++ extra)
    (hextra : ∀ x ∈ extra, ∀ w, x ≠ Thread.submitWork_send w)
    (hth1 : ∀ w, th1 ≠ Thread.submitWork_send w) : SendInv s1 := by
  intro _ u w hu
  rw [hthreads, getElem?_update _ _ _ _ _ (lt_of_getElem? ht)] at hu
  by_cases hut : u = t
  · simp only [hut, if_true, Option.some.injEq] at hu
    exact hth1 w hu
  · simp only [hut, if_false] at hu
    split at hu
    · have := (hl u).2 ⟨_, hu, rfl⟩
      rw [hlock] at this
      cases this
    · exact hextra _ (List.getElem?_mem hu) w rfl

theorem openWindow_submit (s : State) : (openWindow s).b.submit ≠ none := by
  unfold openWindow
  split
  · rename_i c hc
    rw [hc]
    simp
  · simp

theorem sendInv_send {s s1 : State} {t : Nat} {w : work} {th : Thread} (hi : SendInv s)
    (ht : s.threads[t]? = some th)
    (h : submitWork_send s t w = some s1) : SendInv s1 := by
  unfold submitWork_send at h
  split at h
  · simp only [Option.some.injEq] at h
    subst h
    exact sendInv_keep hi ht .panicked [] (by simp [State.panic, State.unlock]) (by simp)
      (fun h => ⟨h, fun w h => Thread.noConfusion h⟩)
  · split at h
    · simp at h
    · split at h
      · simp only [Option.some.injEq] at h
        subst h
        exact sendInv_keep hi ht .panicked [] (by simp [State.panic, State.unlock]) (by simp)
          (fun h => ⟨h, fun w h => Thread.noConfusion h⟩)
      · split at h
        · simp only [Option.some.injEq] at h
          subst h
          exact sendInv_keep hi ht (.Run_wait w.future) [] (by simp) (by simp)
            (fun h => ⟨h, fun w h => Thread.noConfusion h⟩)
        · simp at h

theorem send_submit {s s1 : State} {t : Nat} {w : work}
    (h : submitWork_send s t w = some s1) : s1.b.submit = s.b.submit := by
  unfold submitWork_send at h
  split at h
  · simp only [Option.some.injEq] at h
    subst h
    rfl
  · split at h
    · simp at h
    · split at h
      · simp only [Option.some.injEq] at h
        subst h
        rfl
      · split at h
        · simp only [Option.some.injEq] at h
          subst h
          rfl
        · simp at h

theorem sendInv_submitWork {s s1 : State} {t : Nat} {w : work}
    (h : submitWork s t w = some s1) : SendInv s1 := by
  unfold submitWork at h
  split at h
  · simp at h
  · simp only at h
    have hne := openWindow_submit s
    split at h
    · rename_i s3 hs3
      simp only [Option.some.injEq] at h
      subst h
      intro h1
      rw [send_submit hs3] at h1
      exact absurd h1 hne
    · simp only [Option.some.injEq] at h
      subst h
      intro h1
      exact absurd h1 hne

theorem sendInv_thread {s s1 : State} {t : Nat} {th : Thread} (hi : SendInv s) (hlk : LockInv s)
    (ht : s.threads[t]? = some th) (h : stepThread s t th = some s1) : SendInv s1 := by
  cases th with
  | Run_entry p =>
    simp only [stepThread, Run_entry] at h
    split at h
    · rename_i err herr
      simp only [Option.some.injEq] at h
      subst h
      exact sendInv_keep hi ht (.Run_return (some err)) [] (by simp) (by simp)
        (fun h => ⟨h, fun w h => Thread.noConfusion h⟩)
    · rename_i herr
      split at h
      · rename_i htz
        simp only [Option.some.injEq] at h
        subst h
        exact sendInv_keep hi ht (.Run_return (s.b.doWork [p])) [] (by simp) (by simp)
          (fun h => ⟨h, fun w h => Thread.noConfusion h⟩)
      · rename_i htz
        simp only [Option.some.injEq] at h
        subst h
        exact sendInv_keep hi ht (.Run_submit ⟨p, s.futures.length⟩) [] (by simp) (by simp)
          (fun h => ⟨h, fun w h => Thread.noConfusion h⟩)
  | Run_submit w =>
    exact sendInv_submitWork h
  | submitWork_send w =>
    exact sendInv_send hi ht h
  | Run_wait f =>
    simp only [stepThread, Run_wait] at h
    split at h
    · simp at h
    · rename_i fc hfc
      split at h
      · rename_i e rest hbuf
        simp only [Option.some.injEq] at h
        subst h
        exact sendInv_keep hi ht (.Run_return e) [] (by simp) (by simp)
          (fun h => ⟨h, fun w h => Thread.noConfusion h⟩)
      · rename_i hbuf
        split at h
        · rename_i hcl
          simp only [Option.some.injEq] at h
          subst h
          exact sendInv_keep hi ht (.Run_return none) [] (by simp) (by simp)
            (fun h => ⟨h, fun w h => Thread.noConfusion h⟩)
        · simp at h
  | Flush_entry =>
    simp only [stepThread, Flush] at h
    split at h
    · simp at h
    · rename_i hl
      split at h
      · rename_i f hcl
        simp only [Option.some.injEq] at h
        subst h
        exact sendInv_keep hi ht .panicked [] (by simp [State.panic]) (by simp)
          (fun h => ⟨h, fun w h => Thread.noConfusion h⟩)
      · rename_i chans1 hcl
        simp only [Option.some.injEq] at h
        subst h
        exact sendInv_seal hlk hl ht (.Flush_wait s.b.done) [] (by simp) (by simp)
          (fun w h => Thread.noConfusion h)
  | Flush_wait d =>
    simp only [stepThread, Flush_wait] at h
    split at h
    · simp at h
    · rename_i d0
      split at h
      · rename_i hd
        simp only [Option.some.injEq] at h
        subst h
        exact sendInv_keep hi ht .Flush_return [] (by simp) (by simp)
          (fun h => ⟨h, fun w h => Thread.noConfusion h⟩)
      · simp at h
  | batch_entry =>
    simp only [stepThread, batch_entry] at h
    split at h
    · rename_i hsub
      simp only [Option.some.injEq] at h
      subst h
      exact sendInv_keep hi ht .panicked [] (by simp [State.panic]) (by simp)
        (fun h => ⟨h, fun w h => Thread.noConfusion h⟩)
    · rename_i c hsub
      simp only [Option.some.injEq] at h
      subst h
      exact sendInv_keep hi ht (.batch_range c [] []) [.timer_sleep] (by simp) (by simp)
        (fun h => ⟨h, fun w h => Thread.noConfusion h⟩)
  | batch_range input params futures =>
    simp only [stepThread, batch_range] at h
    split at h
    · simp at h
    · rename_i mc hmc
      split at h
      · rename_i w rest hC
        simp only [Option.some.injEq] at h
        subst h
        exact sendInv_keep hi ht (.batch_range input (params ++ [w.param]) (futures ++ [w.future])) [] (by simp) (by simp)
          (fun h => ⟨h, fun w h => Thread.noConfusion h⟩)
      · rename_i hC
        split at h
        · rename_i hcl
          simp only [Option.some.injEq] at h
          subst h
          exact sendInv_keep hi ht (.batch_deliver (s.b.doWork params) futures) [] (by simp) (by simp)
            (fun h => ⟨h, fun w h => Thread.noConfusion h⟩)
        · simp at h
  | batch_deliver ret futures =>
    simp only [stepThread, batch_deliver] at h
    split at h
    · simp only [Option.some.injEq] at h
      subst h
      exact sendInv_keep hi ht (.batch_send s.b.done) [] (by simp) (by simp)
        (fun h => ⟨h, fun w h => Thread.noConfusion h⟩)
    · rename_i f rest
      split at h
      · simp at h
      · rename_i fc hfc
        split at h
        · rename_i hcl
          simp only [Option.some.injEq] at h
          subst h
          exact sendInv_keep hi ht .panicked [] (by simp [State.panic]) (by simp)
            (fun h => ⟨h, fun w h => Thread.noConfusion h⟩)
        · rename_i hcl
          split at h
          · rename_i hlen
            simp only [Option.some.injEq] at h
            subst h
            exact sendInv_keep hi ht (.batch_deliver ret rest) [] (by simp) (by simp)
              (fun h => ⟨h, fun w h => Thread.noConfusion h⟩)
          · simp at h
  | batch_send d =>
    simp only [stepThread, batch_send] at h
    split at h
    · simp at h
    · rename_i d0
      split at h
      · rename_i hd
        simp only [Option.some.injEq] at h
        subst h
        exact sendInv_keep hi ht .panicked [] (by simp [State.panic]) (by simp)
          (fun h => ⟨h, fun w h => Thread.noConfusion h⟩)
      · simp at h
  | batch_close =>
    simp only [stepThread, batch_close] at h
    split at h
    · rename_i hdn
      simp only [Option.some.injEq] at h
      subst h
      exact sendInv_keep hi ht .panicked [] (by simp [State.panic]) (by simp)
        (fun h => ⟨h, fun w h => Thread.noConfusion h⟩)
    · rename_i d hdn
      split at h
      · simp at h
      · rename_i hd
        simp only [Option.some.injEq] at h
        subst h
        exact sendInv_keep hi ht .panicked [] (by simp [State.panic]) (by simp)
          (fun h => ⟨h, fun w h => Thread.noConfusion h⟩)
      · rename_i hd
        simp only [Option.some.injEq] at h
        subst h
        exact sendInv_keep hi ht .batch_return [] (by simp) (by simp)
          (fun h => ⟨h, fun w h => Thread.noConfusion h⟩)
  | timer_sleep =>
    simp only [stepThread, timer] at h
    split at h
    · simp at h
    · rename_i hl
      split at h
      · rename_i f hcl
        simp only [Option.some.injEq] at h
        subst h
        exact sendInv_keep hi ht .panicked [] (by simp [State.panic]) (by simp)
          (fun h => ⟨h, fun w h => Thread.noConfusion h⟩)
      · rename_i chans1 hcl
        simp only [Option.some.injEq] at h
        subst h
        exact sendInv_seal hlk hl ht .timer_return [] (by simp) (by simp)
          (fun w h => Thread.noConfusion h)
  | Run_return e => simp [stepThread] at h
  | Flush_return => simp [stepThread] at h
  | batch_return => simp [stepThread] at h
  | timer_return => simp [stepThread] at h
  | panicked => simp [stepThread] at h

theorem sendInv_handoff {s s1 : State} {a r : Nat} (hi : SendInv s)
    (h : handoff s a r = some s1) : SendInv s1 := by
  unfold handoff at h
  split at h
  · rename_i d d1 ha hr
    split at h
    · simp only [Option.some.injEq] at h
      subst h
      have har : a ≠ r := by
        intro har
        subst har
        rw [ha] at hr
        cases hr
      have h1 : SendInv { s with threads := s.threads.set a .batch_close } :=
        sendInv_keep hi ha .batch_close [] (by simp) (by simp)
          (fun h => ⟨h, fun w h => Thread.noConfusion h⟩)
      have hr1 : ({ s with threads := s.threads.set a .batch_close } : State).threads[r]?
          = some (.Flush_wait (some d1)) := by
        simp only [List.getElem?_set, har, if_false]
        exact hr
      exact sendInv_keep h1 hr1 .Flush_return [] (by simp) (by simp)
        (fun h => ⟨h, fun w h => Thread.noConfusion h⟩)
    · simp at h
  · simp at h

theorem reachable_sendInv : ∀ s, Reachable s → SendInv s := by
  intro s hs
  have key : LockInv s ∧ SendInv s := by
    refine reachable_induction (fun s => LockInv s ∧ SendInv s) ?_ ?_ s hs
    · intro timeout doWork filter
      refine ⟨lockInv_init timeout doWork filter, ?_⟩
      intro _ t w h
      simp [init] at h
    · apply step_preserves (fun s => LockInv s ∧ SendInv s)
      · intro s th hi _ hth
        refine ⟨lockInv_call hi.1 th ?_, ?_⟩
        · rcases hth with ⟨p, rfl⟩ | rfl <;> rfl
        · intro h1 u w hu
          simp only [List.getElem?_append] at hu
          split at hu
          · exact hi.2 h1 u w hu
          · have := List.getElem?_mem hu
            simp only [List.mem_singleton] at this
            rcases hth with ⟨p, rfl⟩ | rfl <;> cases this
      · intro s t th s1 hi _ ht h
        exact ⟨lockInv_thread hi.1 ht h, sendInv_thread hi.2 hi.1 ht h⟩
      · intro s a r s1 hi _ h
        exact ⟨lockInv_handoff hi.1 h, sendInv_handoff hi.2 h⟩
  exact key.2

/-! ## Batching disabled: `timeout == 0` -/

theorem zeroInv_set {s s1 : State} (hi : ZeroInv s) {t : Nat} (th1 : Thread)
    (hth1 : th1.zeroPath = true) (hsub : s1.b.submit = s.b.submit)
    (hchans : s1.chans = s.chans) (hthreads : s1.threads = s.threads.set t th1)
    (hcalls : ∀ c ∈ s1.calls, c ∈ s.calls ∨ ∃ p : Param, c.2 = [p]) : ZeroInv s1 := by
  obtain ⟨h1, h2, h3, h4⟩ := hi
  refine ⟨hsub.trans h1, hchans.trans h2, ?_, ?_⟩
  · intro u th hu
    rw [hthreads, List.getElem?_set] at hu
    split at hu
    · split at hu
      · simp only [Option.some.injEq] at hu
        subst hu
        exact hth1
      · cases hu
    · exact h3 u th hu
  · intro c hc
    rcases hcalls c hc with h | h
    · exact h4 c h
    · exact h

theorem zeroInv_thread {s s1 : State} {t : Nat} {th : Thread} (hi : ZeroInv s) (hz : s.b.timeout = 0)
    (ht : s.threads[t]? = some th) (h : stepThread s t th = some s1) : ZeroInv s1 := by
  cases th with
  | Run_entry p =>
    simp only [stepThread, Run_entry] at h
    split at h
    · rename_i err herr
      simp only [Option.some.injEq] at h
      subst h
      exact zeroInv_set hi (.Run_return (some err)) rfl rfl rfl rfl (fun c hc => Or.inl hc)
    · rename_i herr
      split at h
      · rename_i htz
        simp only [Option.some.injEq] at h
        subst h
        refine zeroInv_set hi (.Run_return (s.b.doWork [p])) rfl rfl rfl rfl ?_
        intro c hc
        simp only [List.mem_append, List.mem_singleton] at hc
        rcases hc with hc | hc
        · exact Or.inl hc
        · exact Or.inr ⟨p, by rw [hc]⟩
      · rename_i htz
        simp only [Option.some.injEq] at h
        subst h
        exact absurd hz htz
  | Run_submit w =>
    exact absurd (hi.2.2.1 t _ ht) (by simp [Thread.zeroPath])
  | submitWork_send w =>
    exact absurd (hi.2.2.1 t _ ht) (by simp [Thread.zeroPath])
  | Run_wait f =>
    simp only [stepThread, Run_wait] at h
    split at h
    · simp at h
    · rename_i fc hfc
      split at h
      · rename_i e rest hbuf
        simp only [Option.some.injEq] at h
        subst h
        exact absurd (hi.2.2.1 t _ ht) (by simp [Thread.zeroPath])
      · rename_i hbuf
        split at h
        · rename_i hcl
          simp only [Option.some.injEq] at h
          subst h
          exact absurd (hi.2.2.1 t _ ht) (by simp [Thread.zeroPath])
        · simp at h
  | Flush_entry =>
    simp only [stepThread, Flush] at h
    split at h
    · simp at h
    · rename_i hl
      split at h
      · rename_i f hcl
        simp only [Option.some.injEq] at h
        subst h
        exact zeroInv_set hi .panicked rfl rfl rfl rfl (fun c hc => Or.inl hc)
      · rename_i chans1 hcl
        simp only [Option.some.injEq] at h
        subst h
        rw [hi.1] at hcl
        simp [SafeCloseAt] at hcl
  | Flush_wait d =>
    simp only [stepThread, Flush_wait] at h
    split at h
    · simp at h
    · rename_i d0
      split at h
      · rename_i hd
        simp only [Option.some.injEq] at h
        subst h
        exact absurd (hi.2.2.1 t _ ht) (by simp [Thread.zeroPath])
      · simp at h
  | batch_entry =>
    simp only [stepThread, batch_entry] at h
    split at h
    · rename_i hsub
      simp only [Option.some.injEq] at h
      subst h
      exact absurd (hi.2.2.1 t _ ht) (by simp [Thread.zeroPath])
    · rename_i c hsub
      simp only [Option.some.injEq] at h
      subst h
      exact absurd (hi.2.2.1 t _ ht) (by simp [Thread.zeroPath])
  | batch_range input params futures =>
    simp only [stepThread, batch_range] at h
    split at h
    · simp at h
    · rename_i mc hmc
      split at h
      · rename_i w rest hC
        simp only [Option.some.injEq] at h
        subst h
        exact absurd (hi.2.2.1 t _ ht) (by simp [Thread.zeroPath])
      · rename_i hC
        split at h
        · rename_i hcl
          simp only [Option.some.injEq] at h
          subst h
          exact absurd (hi.2.2.1 t _ ht) (by simp [Thread.zeroPath])
        · simp at h
  | batch_deliver ret futures =>
    simp only [stepThread, batch_deliver] at h
    split at h
    · simp only [Option.some.injEq] at h
      subst h
      exact absurd (hi.2.2.1 t _ ht) (by simp [Thread.zeroPath])
    · rename_i f rest
      split at h
      · simp at h
      · rename_i fc hfc
        split at h
        · rename_i hcl
          simp only [Option.some.injEq] at h
          subst h
          exact absurd (hi.2.2.1 t _ ht) (by simp [Thread.zeroPath])
        · rename_i hcl
          split at h
          · rename_i hlen
            simp only [Option.some.injEq] at h
            subst h
            exact absurd (hi.2.2.1 t _ ht) (by simp [Thread.zeroPath])
          · simp at h
  | batch_send d =>
    simp only [stepThread, batch_send] at h
    split at h
    · simp at h
    · rename_i d0
      split at h
      · rename_i hd
        simp only [Option.some.injEq] at h
        subst h
        exact absurd (hi.2.2.1 t _ ht) (by simp [Thread.zeroPath])
      · simp at h
  | batch_close =>
    simp only [stepThread, batch_close] at h
    split at h
    · rename_i hdn
      simp only [Option.some.injEq] at h
      subst h
      exact absurd (hi.2.2.1 t _ ht) (by simp [Thread.zeroPath])
    · rename_i d hdn
      split at h
      · simp at h
      · rename_i hd
        simp only [Option.some.injEq] at h
        subst h
        exact absurd (hi.2.2.1 t _ ht) (by simp [Thread.zeroPath])
      · rename_i hd
        simp only [Option.some.injEq] at h
        subst h
        exact absurd (hi.2.2.1 t _ ht) (by simp [Thread.zeroPath])
  | timer_sleep =>
    simp only [stepThread, timer] at h
    split at h
    · simp at h
    · rename_i hl
      split at h
      · rename_i f hcl
        simp only [Option.some.injEq] at h
        subst h
        exact absurd (hi.2.2.1 t _ ht) (by simp [Thread.zeroPath])
      · rename_i chans1 hcl
        simp only [Option.some.injEq] at h
        subst h
        exact absurd (hi.2.2.1 t _ ht) (by simp [Thread.zeroPath])
  | Run_return e => simp [stepThread] at h
  | Flush_return => simp [stepThread] at h
  | batch_return => simp [stepThread] at h
  | timer_return => simp [stepThread] at h
  | panicked => simp [stepThread] at h

theorem zeroInv_run (workFn : List Param → Err) (filter : Option (Param → Err))
    (es : List Event) (s : State)
    (h : run (init (build 0 workFn filter)) es = some s) :
    s.b.timeout = 0 ∧ s.b.doWork = workFn ∧ s.b.prefilter = filter ∧ ZeroInv s := by
  have h0 : (build 0 workFn filter).timeout = 0 ∧ (build 0 workFn filter).doWork = workFn ∧
      (build 0 workFn filter).prefilter = filter := by
    cases filter <;> exact ⟨rfl, rfl, rfl⟩
  obtain ⟨c1, c2, c3⟩ := sameConfig_run h
  refine ⟨c1.trans h0.1, c2.trans h0.2.1, c3.trans h0.2.2, ?_⟩
  have key : (fun x : State => x.b.timeout = 0 ∧ ZeroInv x) s := by
    refine run_preserves (fun x : State => x.b.timeout = 0 ∧ ZeroInv x) ?_ es _ s ?_ h
    · apply step_preserves (fun x : State => x.b.timeout = 0 ∧ ZeroInv x)
      · intro x th hx _ hth
        refine ⟨hx.1, hx.2.1, hx.2.2.1, ?_, hx.2.2.2.2⟩
        intro u tu hu
        simp only [List.getElem?_append] at hu
        split at hu
        · exact hx.2.2.2.1 u tu hu
        · have := List.getElem?_mem hu
          simp only [List.mem_singleton] at this
          subst this
          rcases hth with ⟨p, rfl⟩ | rfl <;> rfl
      · intro x t th x1 hx _ ht hstep
        exact ⟨(sameConfig_thread hstep).1.trans hx.1, zeroInv_thread hx.2 hx.1 ht hstep⟩
      · intro x a r x1 hx _ hstep
        unfold handoff at hstep
        split at hstep
        · rename_i d d1 ha hr
          exact absurd (hx.2.2.2.1 a _ ha) (by simp [Thread.zeroPath])
        · simp at hstep
    · refine ⟨h0.1, ?_, rfl, ?_, ?_⟩
      · cases filter <;> rfl
      · intro u tu hu
        simp [init] at hu
      · intro c hc
        simp [init] at hc
  exact key.2

/-! ## The worker, run to completion on a sealed window -/

theorem run_append (es es1 : List Event) :
    ∀ (s s1 : State), run s es = some s1 → run s (es ++ es1) = run s1 es1 := by
  induction es with
  | nil =>
    intro s s1 h
    simp only [run, Option.some.injEq] at h
    subst h
    rfl
  | cons e es ih =>
    intro s s1 h
    simp only [run, List.cons_append] at h ⊢
    cases hx : step s e with
    | none => simp [hx] at h
    | some s2 =>
      simp only [hx] at h ⊢
      exact ih s2 s1 h

theorem count_le_heldByChans {l : List myChannel} {c : Nat} {mc : myChannel}
    (hc : l[c]? = some mc) (f : Nat) :
    (mc.C.map work.future).count f ≤ heldByChans l f := by
  have h := heldByChans_set hc newMyChannel f
  have hp : (newMyChannel.C.map work.future).count f = 0 := rfl
  rw [hp] at h
  omega

/-- The `range` loop of lines 106-109 on a window that holds `ws`: the
submissions are received in order. -/
theorem drain_run (t input : Nat) :
    ∀ (ws : List work) (s : State) (params : List Param) (futures : List Nat)
      (mc : myChannel), s.fault = none →
      s.threads[t]? = some (.batch_range input params futures) →
      s.chans[input]? = some mc → mc.C = ws →
      ∃ s1, run s (List.replicate ws.length (.sched t)) = some s1 ∧
        s1.fault = none ∧ s1.b = s.b ∧ s1.dones = s.dones ∧ s1.futures = s.futures ∧
        s1.calls = s.calls ∧
        s1.chans = s.chans.set input { mc with C := [] } ∧
        s1.threads = s.threads.set t
          (.batch_range input (params ++ ws.map work.param) (futures ++ ws.map work.future)) := by
  intro ws
  induction ws with
  | nil =>
    intro s params futures mc hf ht hmc hC
    refine ⟨s, rfl, hf, rfl, rfl, rfl, rfl, ?_, ?_⟩
    · have : ({ mc with C := [] } : myChannel) = mc := by
        cases mc
        simp only at hC
        subst hC
        rfl
      rw [this]
      exact (set_same _ _ _ hmc).symm
    · simp only [List.map_nil, List.append_nil]
      exact (set_same _ _ _ ht).symm
  | cons w rest ih =>
    intro s params futures mc hf ht hmc hC
    have hlt := lt_of_getElem? ht
    have hlc := lt_of_getElem? hmc
    have hstep : step s (.sched t) = some
        { s with chans := s.chans.set input { mc with C := rest },
                 threads := s.threads.set t
                   (.batch_range input (params ++ [w.param]) (futures ++ [w.future])) } := by
      rw [step_sched hf ht]
      simp [stepThread, batch_range, hmc, hC]
    obtain ⟨s1, h1, h2, h3, h4, h5, h6, h7, h8⟩ := ih
      { s with chans := s.chans.set input { mc with C := rest },
               threads := s.threads.set t
                 (.batch_range input (params ++ [w.param]) (futures ++ [w.future])) }
      (params ++ [w.param]) (futures ++ [w.future]) { mc with C := rest } hf
      (by simp [hlt]) (by simp [hlc]) rfl
    refine ⟨s1, ?_, h2, h3, h4, h5, h6, ?_, ?_⟩
    · simp only [List.length_cons, List.replicate_succ, run, hstep]
      exact h1
    · rw [h7]
      simp
    · rw [h8]
      simp

theorem worker_run {s : State} (hi : FreshInv s) (hf : s.fault = none) {t input : Nat}
    {params : List Param} {futures : List Nat} {mc : myChannel}
    (ht : s.threads[t]? = some (.batch_range input params futures))
    (hmc : s.chans[input]? = some mc) (hcl : mc.closed = true) :
    ∃ s1, run s (List.replicate
          (mc.C.length + 1 + (futures ++ mc.C.map work.future).length) (.sched t)) = some s1 ∧
      s1.fault = none ∧ s1.b = s.b ∧ s1.dones = s.dones ∧
      s1.chans = s.chans.set input { mc with C := [] } ∧
      s1.calls = s.calls ++ [(t, params ++ mc.C.map work.param)] ∧
      s1.threads = s.threads.set t
        (.batch_deliver (s.b.doWork (params ++ mc.C.map work.param)) []) ∧
      (futures ++ mc.C.map work.future).Nodup ∧
      (∀ f ∈ futures ++ mc.C.map work.future,
        s.futures[f]? = some freshFuture ∧
        s1.futures[f]? =
          some { buf := [s.b.doWork (params ++ mc.C.map work.param)], closed := true }) ∧
      (∀ f, f ∉ futures ++ mc.C.map work.future → s1.futures[f]? = s.futures[f]?) := by
  have hlt := lt_of_getElem? ht
  have hlc := lt_of_getElem? hmc
  -- the futures of the batch are distinct and fresh
  have hcount : ∀ f, (futures ++ mc.C.map work.future).count f ≤ owners s f := by
    intro f
    have h1 := count_le_heldByThreads ht f
    have h2 := count_le_heldByChans hmc f
    have h3 : (Thread.batch_range input params futures).held.count f = futures.count f := rfl
    rw [List.count_append]
    unfold owners
    omega
  have hnd : (futures ++ mc.C.map work.future).Nodup := by
    rw [List.nodup_iff_count_le_one]
    intro f
    exact Nat.le_trans (hcount f) (hi f).1
  have hfr : ∀ f ∈ futures ++ mc.C.map work.future, s.futures[f]? = some freshFuture := by
    intro f hfm
    apply (hi f).2
    exact Nat.lt_of_lt_of_le (List.count_pos_iff.2 hfm) (hcount f)
  -- the range loop
  obtain ⟨s1, a1, a2, a3, a4, a5, a6, a7, a8⟩ :=
    drain_run t input mc.C s params futures mc hf ht hmc rfl
  -- the call of doWork
  have ht1 : s1.threads[t]? = some (.batch_range input (params ++ mc.C.map work.param)
      (futures ++ mc.C.map work.future)) := by
    rw [a8]
    simp [hlt]
  have hmc1 : s1.chans[input]? = some { mc with C := [] } := by
    rw [a7]
    simp [hlc]
  have hstep : step s1 (.sched t) = some
      { s1 with calls := s1.calls ++ [(t, params ++ mc.C.map work.param)],
                threads := s1.threads.set t
                  (.batch_deliver (s1.b.doWork (params ++ mc.C.map work.param))
                    (futures ++ mc.C.map work.future)) } := by
    rw [step_sched a2 ht1]
    simp [stepThread, batch_range, hmc1, hcl]
  -- the delivery loop
  obtain ⟨s3, b1, b2, b3, b4, b5, b6, b7, b8, b9⟩ := deliver_run t
    (s1.b.doWork (params ++ mc.C.map work.param)) (futures ++ mc.C.map work.future)
    { s1 with calls := s1.calls ++ [(t, params ++ mc.C.map work.param)],
              threads := s1.threads.set t
                (.batch_deliver (s1.b.doWork (params ++ mc.C.map work.param))
                  (futures ++ mc.C.map work.future)) }
    a2 (by simp [lt_of_getElem? ht1]) hnd
    (by
      intro f hfm
      simp only [a5]
      exact hfr f hfm)
  refine ⟨s3, ?_, b2, ?_, ?_, ?_, ?_, ?_, hnd, ?_, ?_⟩
  · rw [List.replicate_add, List.replicate_add, List.append_assoc, run_append _ _ _ _ a1]
    simp only [List.replicate_one, List.singleton_append, run, hstep]
    exact b1
  · rw [b4]
    exact a3
  · rw [b6]
    exact a4
  · rw [b5]
    exact a7
  · rw [b3, a6]
  · rw [b7, a8, a3]
    simp
  · intro f hfm
    refine ⟨hfr f hfm, ?_⟩
    rw [b8 f hfm, a3]
  · intro f hfm
    rw [b9 f hfm]
    simp only [a5]

/-! ## Sealing and sending -/

theorem step_some_fault {s s1 : State} {e : Event} (h : step s e = some s1) :
    s.fault = none := by
  unfold step at h
  cases hf : s.fault with
  | none => rfl
  | some f => simp [hf] at h

theorem safeCloseAt_ok {s : State} (hw : WindowInv s) {c : Nat} (hc : s.b.submit = some c) :
    ∃ mc : myChannel, s.chans[c]? = some mc ∧
      SafeCloseAt s.chans s.b.submit
        = .ok (s.chans.set c { mc with closed := true, once := true }) := by
  obtain ⟨mc, h1, h2, h3⟩ := hw.1 c hc
  refine ⟨mc, h1, ?_⟩
  simp [SafeCloseAt, hc, h1, myChannel.SafeClose, closeC, h2, h3]

theorem safeCloseAt_error {s : State} (hw : WindowInv s) {f : Fault}
    (h : SafeCloseAt s.chans s.b.submit = .error f) : s.b.submit = none := by
  cases hc : s.b.submit with
  | none => rfl
  | some c =>
    obtain ⟨mc, _, h2⟩ := safeCloseAt_ok hw hc
    rw [h2] at h
    cases h

theorem Flush_submit {s s1 : State} {t : Nat} (hw : WindowInv s)
    (h : Flush s t = some s1) : s1.b.submit = none := by
  unfold Flush at h
  split at h
  · simp at h
  · split at h
    · rename_i f hcl
      simp only [Option.some.injEq] at h
      subst h
      exact safeCloseAt_error hw hcl
    · simp only [Option.some.injEq] at h
      subst h
      rfl

theorem timer_submit {s s1 : State} {t : Nat} (hw : WindowInv s)
    (h : timer s t = some s1) : s1.b.submit = none := by
  unfold timer at h
  split at h
  · simp at h
  · split at h
    · rename_i f hcl
      simp only [Option.some.injEq] at h
      subst h
      exact safeCloseAt_error hw hcl
    · simp only [Option.some.injEq] at h
      subst h
      rfl

/-- On an unsealed window the send of line 96 cannot panic: it appends `w` to
the buffer of that window and nothing else happens to the windows. -/
theorem send_spec {s s1 : State} {t : Nat} {w : work} (hw : WindowInv s) {c : Nat}
    (hc : s.b.submit = some c) (h : submitWork_send s t w = some s1) :
    ∃ mc : myChannel, s.chans[c]? = some mc ∧ mc.closed = false ∧ mc.C.length < capC ∧
      s1 = { s with chans := s.chans.set c { mc with C := mc.C ++ [w] },
                    b := { s.b with lock := none },
                    threads := s.threads.set t (.Run_wait w.future) } := by
  obtain ⟨mc, h1, h2, _⟩ := hw.1 c hc
  unfold submitWork_send at h
  split at h
  · rename_i hnone
    rw [hnone] at hc
    cases hc
  · rename_i c1 hc1
    have hcc : c1 = c := by
      rw [hc1] at hc
      exact Option.some.inj hc
    subst hcc
    split at h
    · rename_i hn
      rw [hn] at h1
      cases h1
    · rename_i mc1 hmc1
      have hmm : mc1 = mc := by
        rw [hmc1] at h1
        exact Option.some.inj h1
      subst hmm
      split at h
      · rename_i hcl
        rw [h2] at hcl
        cases hcl
      · split at h
        · rename_i hlen
          simp only [Option.some.injEq] at h
          exact ⟨mc1, hmc1, h2, hlen, h.symm⟩
        · simp at h

theorem openWindow_none {s : State} (h : s.b.submit = none) :
    openWindow s =
      { s with b := { s.b with done := some s.dones.length, submit := some s.chans.length },
               dones := s.dones ++ [false],
               chans := s.chans ++ [newMyChannel],
               threads := s.threads ++ [.batch_entry] } := by
  unfold openWindow
  simp [h]

theorem openWindow_fault (s : State) : (openWindow s).fault = s.fault := by
  unfold openWindow
  split <;> rfl

/-- What holds for one worker: in every reachable state, a worker whose input
channel is closed, run alone to the end of its delivery loop, invokes `doWork`
once, on the parameters it has collected followed by those still in the
buffer, and writes the outcome of that call exactly once to the future of
every one of the submissions it has received; a `Run` call that waits on one
of them then returns that outcome.  The submissions a worker receives need
not be those of one window, see `workerStartsLate`. -/
theorem worker_delivers_to_collected_futures (s : State) (hs : Reachable s)
    (hf : s.fault = none) (t input : Nat) (params : List Param) (futures : List Nat)
    (mc : myChannel) (ht : s.threads[t]? = some (.batch_range input params futures))
    (hmc : s.chans[input]? = some mc) (hcl : mc.closed = true) :
    ∃ s1, run s (List.replicate
          (mc.C.length + 1 + (futures ++ mc.C.map work.future).length) (.sched t)) = some s1 ∧
      s1.fault = none ∧
      s1.calls = s.calls ++ [(t, params ++ mc.C.map work.param)] ∧
      s1.threads[t]? =
        some (.batch_deliver (s.b.doWork (params ++ mc.C.map work.param)) []) ∧
      (futures ++ mc.C.map work.future).Nodup ∧
      (∀ f ∈ futures ++ mc.C.map work.future,
        s.futures[f]? = some freshFuture ∧
        s1.futures[f]? =
          some { buf := [s.b.doWork (params ++ mc.C.map work.param)], closed := true }) ∧
      (∀ f, f ∉ futures ++ mc.C.map work.future → s1.futures[f]? = s.futures[f]?) ∧
      (∀ u f, f ∈ futures ++ mc.C.map work.future → s1.threads[u]? = some (.Run_wait f) →
        ∃ s2, step s1 (.sched u) = some s2 ∧
          s2.threads[u]? =
            some (.Run_return (s.b.doWork (params ++ mc.C.map work.param)))) := by
  obtain ⟨s1, h1, h2, _, _, _, h6, h7, h8, h9, h10⟩ :=
    worker_run (reachable_freshInv s hs) hf ht hmc hcl
  refine ⟨s1, h1, h2, h6, ?_, h8, h9, h10, ?_⟩
  · rw [h7]
    exact List.getElem?_set_self (lt_of_getElem? ht)
  · intro u f hfm hu
    have hfut := (h9 f hfm).2
    refine ⟨{ s1 with
        futures := s1.futures.set f
          { buf := [], closed := true },
        threads := s1.threads.set u
          (.Run_return (s.b.doWork (params ++ mc.C.map work.param))) }, ?_, ?_⟩
    · rw [step_sched h2 hu]
      simp [stepThread, Run_wait, hfut]
    · exact List.getElem?_set_self (lt_of_getElem? hu)

/-! ## The claims -/

/-- C1 (the code departs from the claim): `Run(1)` opens a window and submits to
it, a concurrent `Flush` seals that window before the goroutine started by
`go b.batch()` has executed line 102.  The worker then reads `b.submit`, which
`Flush` has set to nil, and panics: `doWork` is never invoked for the window
that holds the submission of `Run(1)`, and no further step is possible.  In
the execution `workerStartsLate` the late read makes two workers drain the
third window: `doWork` is invoked with `[3]` and with `[4]` for the window that
holds the submissions of `Run(3)` and `Run(4)`, and never for the window that
holds the submission of `Run(2)`. -/
theorem batch_misses_or_splits_a_window :
    (run (init (New 50 okWork)) flushBeforeWorker).map State.view
      = some { lock := some 2, submit := none, done := some 0,
               chans := [{ C := [⟨1, 0⟩], closed := true, once := true }],
               dones := [false], futures := [⟨[], false⟩],
               threads := [.Run_wait 0, .batch_entry, .Flush_wait (some 0)],
               calls := [], fault := none } ∧
    (run (init (New 50 okWork)) (flushBeforeWorker ++ [.sched 1])).map State.view
      = some { lock := some 2, submit := none, done := some 0,
               chans := [{ C := [⟨1, 0⟩], closed := true, once := true }],
               dones := [false], futures := [⟨[], false⟩],
               threads := [.Run_wait 0, .panicked, .Flush_wait (some 0)],
               calls := [], fault := some .nilDereference } ∧
    (∀ e : Event, run (init (New 50 okWork)) (flushBeforeWorker ++ [.sched 1, e]) = none) ∧
    (run (init (New 50 okWork)) workerStartsLate).map State.view
      = some { lock := none, submit := none, done := some 2,
               chans := [{ C := [], closed := true, once := true },
                         { C := [⟨2, 1⟩], closed := true, once := true },
                         { C := [], closed := true, once := true }],
               dones := [true, false, false],
               futures := [⟨[], true⟩, ⟨[], false⟩, ⟨[], false⟩, ⟨[], false⟩],
               threads := [.Run_return none, .batch_return, .timer_return, .Flush_return,
                           .Run_wait 1, .batch_deliver none [2], .Run_wait 2,
                           .batch_deliver none [3], .timer_return, .timer_sleep,
                           .Run_wait 3],
               calls := [(1, [1]), (5, [3]), (7, [4])], fault := none } :=
  ⟨rfl, rfl, fun _ => rfl, rfl⟩

/-- C2 (the code departs from the claim): in `sharedWindow` the third window
holds the submissions of `Run(3)` and `Run(4)`, and two workers range over its
channel, because the worker of the second window executed line 102 only after
the third window had been opened.  With a work function whose outcome depends
on the batch, each worker receives one of the two submissions, calls
`doWork` on it and serves its future: the futures of the one window receive
`some 3` and `some 4`, and `Run(3)` and `Run(4)` return different outcomes. -/
theorem one_window_two_outcomes :
    (run (init (New 50 sumWork)) sharedWindow).map State.view
      = some { lock := none, submit := some 2, done := some 2,
               chans := [{ C := [], closed := true, once := true },
                         { C := [⟨2, 1⟩], closed := true, once := true },
                         { C := [⟨3, 2⟩, ⟨4, 3⟩], closed := false, once := false }],
               dones := [true, false, false],
               futures := [⟨[], true⟩, ⟨[], false⟩, ⟨[], false⟩, ⟨[], false⟩],
               threads := [.Run_return (some 1), .batch_return, .timer_return, .Flush_return,
                           .Run_wait 1, .batch_range 2 [] [], .Run_wait 2,
                           .batch_range 2 [] [], .timer_sleep, .timer_sleep, .Run_wait 3],
               calls := [(1, [1])], fault := none } ∧
    workerStartsLate = sharedWindow ++ [.sched 5, .sched 7, .sched 8, .sched 5, .sched 7] ∧
    (run (init (New 50 sumWork)) (workerStartsLate ++ [.sched 5, .sched 7])).map State.view
      = some { lock := none, submit := none, done := some 2,
               chans := [{ C := [], closed := true, once := true },
                         { C := [⟨2, 1⟩], closed := true, once := true },
                         { C := [], closed := true, once := true }],
               dones := [true, false, false],
               futures := [⟨[], true⟩, ⟨[], false⟩, ⟨[some 3], true⟩, ⟨[some 4], true⟩],
               threads := [.Run_return (some 1), .batch_return, .timer_return, .Flush_return,
                           .Run_wait 1, .batch_deliver (some 3) [], .Run_wait 2,
                           .batch_deliver (some 4) [], .timer_return, .timer_sleep,
                           .Run_wait 3],
               calls := [(1, [1]), (5, [3]), (7, [4])], fault := none } ∧
    (run (init (New 50 sumWork))
        (workerStartsLate ++ [.sched 5, .sched 7, .sched 6, .sched 10])).map State.view
      = some { lock := none, submit := none, done := some 2,
               chans := [{ C := [], closed := true, once := true },
                         { C := [⟨2, 1⟩], closed := true, once := true },
                         { C := [], closed := true, once := true }],
               dones := [true, false, false],
               futures := [⟨[], true⟩, ⟨[], false⟩, ⟨[], true⟩, ⟨[], true⟩],
               threads := [.Run_return (some 1), .batch_return, .timer_return, .Flush_return,
                           .Run_wait 1, .batch_deliver (some 3) [], .Run_return (some 3),
                           .batch_deliver (some 4) [], .timer_return, .timer_sleep,
                           .Run_return (some 4)],
               calls := [(1, [1]), (5, [3]), (7, [4])], fault := none } :=
  ⟨rfl, rfl, rfl, rfl⟩

/-- C3: on a batcher on which `Prefilter(f)` has been set, whatever the timeout
and the state reached, a `Run(p)` whose prefilter returns the non-nil error `e`
returns exactly `e` in one step that changes nothing else: no `doWork`
invocation is added to the trace, no future and no window is created, and the
fields of the batcher (`submit`, `done`, `lock`) keep their values. -/
theorem Run_prefilter_rejection (timeout : Nat) (doWork : List Param → Err)
    (f : Param → Err) (es : List Event) (s : State)
    (h : run (init ((New timeout doWork).Prefilter f)) es = some s)
    (hf : s.fault = none) (t : Nat) (p : Param) (e : Nat)
    (ht : s.threads[t]? = some (.Run_entry p)) (hrej : f p = some e) :
    step s (.sched t) = some { s with threads := s.threads.set t (.Run_return (some e)) } := by
  have hpre : s.b.prefilter = some f := (sameConfig_run h).2.2
  rw [step_sched hf ht]
  simp [stepThread, Run_entry, Batcher.filterErr, hpre, hrej]

/-- Witness for C3: `Run(0)` with a prefilter that rejects `0` with error `9`. -/
theorem Run_prefilter_rejection_witness :
    (step rejectState (.sched 0)).map State.view
      = some { lock := none, submit := none, done := none, chans := [], dones := [],
               futures := [], threads := [.Run_return (some 9)], calls := [],
               fault := none } := by
  rw [Run_prefilter_rejection 50 okWork rejectZero [.callRun 0] rejectState rfl rfl 0 0 9
    rfl rfl]
  rfl

/-- C4: on a batcher built by `New(0, workFn)`, with or without a prefilter, no
window is ever open (`submit` is nil and no `myChannel` exists), every
invocation of `workFn` in the trace has a single-element batch, and a `Run(p)`
that passes the prefilter invokes `workFn` once with `[p]` and returns
`workFn([p])`, changing nothing else. -/
theorem Run_zero_timeout_inline (workFn : List Param → Err)
    (filter : Option (Param → Err)) (es : List Event) (s : State)
    (h : run (init (build 0 workFn filter)) es = some s) :
    s.b.submit = none ∧ s.chans = [] ∧
    (∀ c ∈ s.calls, ∃ p : Param, c.2 = [p]) ∧
    (∀ (t : Nat) (p : Param), s.fault = none → s.threads[t]? = some (.Run_entry p) →
      (filter = none ∨ ∃ f, filter = some f ∧ f p = none) →
      step s (.sched t) = some
        { s with calls := s.calls ++ [(t, [p])],
                 threads := s.threads.set t (.Run_return (workFn [p])) }) := by
  obtain ⟨hz, hd, hp, h1, h2, _, h4⟩ := zeroInv_run workFn filter es s h
  refine ⟨h1, h2, h4, ?_⟩
  intro t p hf ht hacc
  have hfe : s.b.filterErr p = none := by
    unfold Batcher.filterErr
    rw [hp]
    rcases hacc with h0 | ⟨f, h0, h5⟩
    · rw [h0]
    · rw [h0]
      exact h5
  rw [step_sched hf ht]
  simp [stepThread, Run_entry, hfe, hz, hd]

/-- Witness for C4: two `Run` calls on `New(0, failWork)`; the second one is
served on its own. -/
theorem Run_zero_timeout_inline_witness :
    (step inlineState (.sched 1)).map State.view
      = some { lock := none, submit := none, done := none, chans := [], dones := [],
               futures := [], threads := [.Run_return (some 1), .Run_return (some 1)],
               calls := [(0, [5]), (1, [6])], fault := none } := by
  rw [(Run_zero_timeout_inline failWork none [.callRun 5, .callRun 6, .sched 0] inlineState
    rfl).2.2.2 1 6 rfl rfl (Or.inl rfl)]
  rfl

/-- C5 (the code departs from the claim): `Flush` on a batcher without an open
window panics with a nil pointer dereference at `b.submit.SafeClose()`: on a
freshly built batcher (any timeout, work function and prefilter), on a second
`Flush` in a row, and after the timer has sealed the last window. -/
theorem Flush_without_window_faults :
    (∀ (timeout : Nat) (doWork : List Param → Err) (filter : Option (Param → Err)),
      (run (init (build timeout doWork filter)) [.callFlush, .sched 0]).map State.view
        = some { lock := none, submit := none, done := none, chans := [], dones := [],
                 futures := [], threads := [.panicked], calls := [],
                 fault := some .nilDereference }) ∧
    (run (init (New 50 okWork)) (runThenFlush ++ [.callFlush, .sched 4])).map State.view
      = some { lock := none, submit := none, done := some 0,
               chans := [{ C := [], closed := true, once := true }],
               dones := [true], futures := [⟨[], true⟩],
               threads := [.Run_return none, .batch_return, .timer_sleep, .Flush_return,
                           .panicked],
               calls := [(1, [1])], fault := some .nilDereference } ∧
    (run (init (New 50 okWork)) (runThenTimer ++ [.callFlush, .sched 3])).map State.view
      = some { lock := none, submit := none, done := some 0,
               chans := [{ C := [], closed := true, once := true }],
               dones := [false], futures := [⟨[], true⟩],
               threads := [.Run_return none, .batch_deliver none [], .timer_return,
                           .panicked],
               calls := [(1, [1])], fault := some .nilDereference } := by
  refine ⟨?_, rfl, rfl⟩
  intro timeout doWork filter
  cases filter <;> rfl

/-- C6 (the code departs from the claim): the timer seals the window of `Run(1)`
while its worker is still busy, `Run(2)` opens a second window and `Flush`
seals it and waits on the `done` channel of that second window.  The worker of
the first window then evaluates `b.done`, which by now is the channel of the
second window, and its send releases `Flush`: `Flush` returns although `doWork`
has not been invoked for the second window and the future of `Run(2)` is
empty.  Later the worker of the second window panics on the channel that the
first worker has closed. -/
theorem Flush_returns_before_its_window_is_drained :
    (run (init (New 50 okWork)) flushWhileEarlierWorkerRuns).map State.view
      = some { lock := some 6, submit := none, done := some 1,
               chans := [{ C := [⟨1, 0⟩], closed := true, once := true },
                         { C := [⟨2, 1⟩], closed := true, once := true }],
               dones := [false, false], futures := [⟨[], false⟩, ⟨[], false⟩],
               threads := [.Run_wait 0, .batch_range 0 [] [], .timer_return, .Run_wait 1,
                           .batch_range 1 [] [], .timer_sleep, .Flush_wait (some 1)],
               calls := [], fault := none } ∧
    (run (init (New 50 okWork))
        (flushWhileEarlierWorkerRuns ++
          [.sched 1, .sched 1, .sched 1, .sched 1, .meet 1 6])).map State.view
      = some { lock := none, submit := none, done := some 1,
               chans := [{ C := [], closed := true, once := true },
                         { C := [⟨2, 1⟩], closed := true, once := true }],
               dones := [false, false], futures := [⟨[none], true⟩, ⟨[], false⟩],
               threads := [.Run_wait 0, .batch_close, .timer_return, .Run_wait 1,
                           .batch_range 1 [] [], .timer_sleep, .Flush_return],
               calls := [(1, [1])], fault := none } ∧
    (run (init (New 50 okWork))
        (flushWhileEarlierWorkerRuns ++
          [.sched 1, .sched 1, .sched 1, .sched 1, .meet 1 6, .sched 1,
           .sched 4, .sched 4, .sched 4, .sched 4, .sched 4])).map State.view
      = some { lock := none, submit := none, done := some 1,
               chans := [{ C := [], closed := true, once := true },
                         { C := [], closed := true, once := true }],
               dones := [false, true], futures := [⟨[none], true⟩, ⟨[none], true⟩],
               threads := [.Run_wait 0, .batch_return, .timer_return, .Run_wait 1,
                           .panicked, .timer_sleep, .Flush_return],
               calls := [(1, [1]), (4, [2])], fault := some .sendOnClosed } :=
  ⟨rfl, rfl, rfl⟩

/-- C7 (the code departs from the claim): after `Flush` has sealed the window of
`Run(1)` and everything has returned, the timer of that window is still
asleep.  When it wakes it acts on whatever `b.submit` is then: with no window
open it panics with a nil pointer dereference; with the window of a later
`Run(2)` open it seals that window and sets `b.submit` to nil. -/
theorem stale_timer_faults_or_seals_later_window :
    (run (init (New 50 okWork)) runThenFlush).map State.view
      = some { lock := none, submit := none, done := some 0,
               chans := [{ C := [], closed := true, once := true }],
               dones := [true], futures := [⟨[], true⟩],
               threads := [.Run_return none, .batch_return, .timer_sleep, .Flush_return],
               calls := [(1, [1])], fault := none } ∧
    (run (init (New 50 okWork)) (runThenFlush ++ [.sched 2])).map State.view
      = some { lock := none, submit := none, done := some 0,
               chans := [{ C := [], closed := true, once := true }],
               dones := [true], futures := [⟨[], true⟩],
               threads := [.Run_return none, .batch_return, .panicked, .Flush_return],
               calls := [(1, [1])], fault := some .nilDereference } ∧
    (run (init (New 50 okWork))
        (runThenFlush ++ [.callRun 2, .sched 4, .sched 4])).map State.view
      = some { lock := none, submit := some 1, done := some 1,
               chans := [{ C := [], closed := true, once := true },
                         { C := [⟨2, 1⟩], closed := false, once := false }],
               dones := [true, false], futures := [⟨[], true⟩, ⟨[], false⟩],
               threads := [.Run_return none, .batch_return, .timer_sleep, .Flush_return,
                           .Run_wait 1, .batch_entry],
               calls := [(1, [1])], fault := none } ∧
    (run (init (New 50 okWork))
        (runThenFlush ++ [.callRun 2, .sched 4, .sched 4, .sched 2])).map State.view
      = some { lock := none, submit := none, done := some 1,
               chans := [{ C := [], closed := true, once := true },
                         { C := [⟨2, 1⟩], closed := true, once := true }],
               dones := [true, false], futures := [⟨[], true⟩, ⟨[], false⟩],
               threads := [.Run_return none, .batch_return, .timer_return, .Flush_return,
                           .Run_wait 1, .batch_entry],
               calls := [(1, [1])], fault := none } :=
  ⟨rfl, rfl, rfl, rfl⟩

/-- C8, window replacement: in every reachable state `b.submit` is nil or refers
to a window whose channel is not closed (the states of the semantics in which
the lock is held are those with a goroutine blocked at line 96 or at line 141,
and the property holds there as well); a sealing step (timer or `Flush`)
leaves `b.submit` nil, `submitWork` never panics on its send and sends on an
unsealed window, and a `submitWork` that finds `b.submit` nil opens a new
window that holds exactly its own submission. -/
theorem window_replacement_invariant (s : State) (hs : Reachable s) :
    (s.b.submit = none ∨
      ∃ (c : Nat) (mc : myChannel),
        s.b.submit = some c ∧ s.chans[c]? = some mc ∧ mc.closed = false) ∧
    (∀ (t : Nat) (s1 : State),
      (s.threads[t]? = some .timer_sleep ∨ s.threads[t]? = some .Flush_entry) →
      step s (.sched t) = some s1 → s1.b.submit = none) ∧
    (∀ (t : Nat) (w : work) (s1 : State),
      (s.threads[t]? = some (.Run_submit w) ∨ s.threads[t]? = some (.submitWork_send w)) →
      step s (.sched t) = some s1 →
      s1.fault = none ∧
      (s1.threads[t]? = some (.Run_wait w.future) →
        ∃ (c : Nat) (mc : myChannel), s1.b.submit = some c ∧ s1.chans[c]? = some mc ∧
          mc.closed = false ∧ mc.C.getLast? = some w)) ∧
    (∀ (t : Nat) (w : work) (s1 : State), s.b.submit = none →
      s.threads[t]? = some (.Run_submit w) → step s (.sched t) = some s1 →
      s1.b.submit = some s.chans.length ∧
      s1.chans = s.chans ++ [{ C := [w], closed := false, once := false }] ∧
      s1.threads[t]? = some (.Run_wait w.future)) := by
  have hw := reachable_windowInv s hs
  have hsend := reachable_sendInv s hs
  refine ⟨?_, ?_, ?_, ?_⟩
  · cases hc : s.b.submit with
    | none => exact Or.inl rfl
    | some c =>
      obtain ⟨mc, h1, h2, _⟩ := hw.1 c hc
      exact Or.inr ⟨c, mc, rfl, h1, h2⟩
  · intro t s1 ht h
    have hf := step_some_fault h
    rcases ht with ht | ht
    · rw [step_sched hf ht] at h
      exact timer_submit hw h
    · rw [step_sched hf ht] at h
      exact Flush_submit hw h
  · intro t w s1 ht h
    have hf := step_some_fault h
    have hw1 := reachable_windowInv s1 (reachable_step hs h)
    have hlt : t < s.threads.length := by
      rcases ht with ht | ht <;> exact lt_of_getElem? ht
    -- what a completed send looks like
    have key : ∀ (x : State) (c : Nat), WindowInv x → x.fault = none → x.b.submit = some c →
        submitWork_send x t w = some s1 → s1.fault = none ∧
          ∃ (c : Nat) (mc : myChannel), s1.b.submit = some c ∧ s1.chans[c]? = some mc ∧
            mc.closed = false ∧ mc.C.getLast? = some w := by
      intro x c hx hxf hxc hxs
      obtain ⟨mc, m1, m2, _, m4⟩ := send_spec hx hxc hxs
      subst m4
      refine ⟨hxf, c, { mc with C := mc.C ++ [w] }, hxc, ?_, m2, ?_⟩
      · simp [lt_of_getElem? m1]
      · simp
    rcases ht with ht | ht
    · rw [step_sched hf ht] at h
      simp only [stepThread, submitWork] at h
      split at h
      · simp at h
      · have hx : WindowInv
            { openWindow s with b := { (openWindow s).b with lock := some t } } :=
          windowInv_congr (windowInv_openWindow hw) rfl rfl
        split at h
        · rename_i s3 hs3
          simp only [Option.some.injEq] at h
          subst h
          cases hc : (openWindow s).b.submit with
          | none => exact absurd hc (openWindow_submit s)
          | some c =>
            obtain ⟨k1, k2⟩ := key _ c hx ((openWindow_fault s).trans hf) hc hs3
            exact ⟨k1, fun _ => k2⟩
        · simp only [Option.some.injEq] at h
          subst h
          refine ⟨(openWindow_fault s).trans hf, ?_⟩
          intro hth
          obtain ⟨extra, hex, _⟩ := openWindow_threads s
          simp only [hex] at hth
          rw [List.getElem?_set_self (by simp; omega)] at hth
          cases hth
    · rw [step_sched hf ht] at h
      simp only [stepThread] at h
      cases hc : s.b.submit with
      | none => exact absurd ht (hsend hc t w)
      | some c =>
        obtain ⟨k1, k2⟩ := key s c hw hf hc h
        exact ⟨k1, fun _ => k2⟩
  · intro t w s1 hnone ht h
    have hf := step_some_fault h
    have hlt := lt_of_getElem? ht
    rw [step_sched hf ht] at h
    simp only [stepThread, submitWork] at h
    split at h
    · simp at h
    · have hx : WindowInv
          { openWindow s with b := { (openWindow s).b with lock := some t } } :=
        windowInv_congr (windowInv_openWindow hw) rfl rfl
      have hc : ({ openWindow s with b := { (openWindow s).b with lock := some t } }
          : State).b.submit = some s.chans.length := by
        rw [openWindow_none hnone]
      split at h
      · rename_i s3 hs3
        simp only [Option.some.injEq] at h
        subst h
        obtain ⟨mc, m1, _, _, m4⟩ := send_spec hx hc hs3
        have hmc : mc = newMyChannel := by
          rw [openWindow_none hnone] at m1
          simp only [List.getElem?_concat_length, Option.some.injEq] at m1
          exact m1.symm
        subst hmc
        subst m4
        refine ⟨hc, ?_, ?_⟩
        · rw [openWindow_none hnone]
          simp [newMyChannel]
        · rw [openWindow_none hnone]
          simp only
          rw [List.getElem?_set_self (by simp; omega)]
      · rename_i hs3
        exfalso
        rw [openWindow_none hnone] at hs3
        simp [submitWork_send, newMyChannel, capC] at hs3

/-- Witness for C8: after `Run(1)` has submitted, `b.submit` refers to an
unsealed window. -/
theorem window_replacement_invariant_witness :
    Reachable windowOpen ∧
    ∃ (c : Nat) (mc : myChannel),
      windowOpen.b.submit = some c ∧ windowOpen.chans[c]? = some mc ∧ mc.closed = false := by
  have hr : Reachable windowOpen :=
    ⟨50, okWork, none, [.callRun 1, .sched 0, .sched 0], rfl⟩
  refine ⟨hr, ?_⟩
  rcases (window_replacement_invariant windowOpen hr).1 with h | h
  · have h0 : windowOpen.b.submit = some 0 := rfl
    rw [h0] at h
    cases h
  · exact h

/-- C9: for every window in the heap of a reachable state, `SafeClose` does not
panic and leaves the window sealed; a second `SafeClose` returns the state the
first one produced.  The first call closes the channel when it was open and
is the identity when the window was sealed before. -/
theorem SafeClose_idempotent (s : State) (hs : Reachable s) (c : Nat) (mc : myChannel)
    (hc : s.chans[c]? = some mc) :
    ∃ mc1, mc.SafeClose = .ok mc1 ∧ mc1.SafeClose = .ok mc1 ∧
      mc1.closed = true ∧ mc1.once = true ∧ mc1.C = mc.C ∧
      (mc.closed = true → mc1 = mc) ∧
      (mc.closed = false → mc1 = { mc with closed := true, once := true }) := by
  have hw := (reachable_windowInv s hs).2 c mc hc
  cases mc with
  | mk C closed once =>
    simp only at hw
    subst hw
    cases closed with
    | true =>
      exact ⟨⟨C, true, true⟩, rfl, rfl, rfl, rfl, rfl, fun _ => rfl,
        fun h => Bool.noConfusion h⟩
    | false =>
      exact ⟨⟨C, true, true⟩, rfl, rfl, rfl, rfl, rfl, fun h => Bool.noConfusion h,
        fun _ => rfl⟩

/-- Witness for C9: the sealed window of `sealedState`. -/
theorem SafeClose_idempotent_witness :
    Reachable sealedState ∧
    ∃ mc1, (myChannel.mk [⟨1, 0⟩, ⟨2, 1⟩] true true).SafeClose = .ok mc1 ∧
      mc1.SafeClose = .ok mc1 := by
  have hr : Reachable sealedState := ⟨50, failWork, none, twoRunsSealed, rfl⟩
  refine ⟨hr, ?_⟩
  obtain ⟨mc1, h1, h2, _⟩ := SafeClose_idempotent sealedState hr 0
    { C := [⟨1, 0⟩, ⟨2, 1⟩], closed := true, once := true } rfl
  exact ⟨mc1, h1, h2⟩

/-- C10 as stated fails: in the reachable state `flushWaiting` the caller of
`Flush` is blocked on `<-b.done` and owns the lock. -/
theorem Flush_waits_under_lock : ¬ ∀ s, Reachable s → NoWaitUnderLock s := by
  intro h
  have hr : Reachable flushWaiting :=
    ⟨50, okWork, none, [.callRun 1, .sched 0, .sched 0, .sched 1, .callFlush, .sched 3], rfl⟩
  exact (h flushWaiting hr 3 rfl).2 (some 0) rfl

/-- C10 as amended: in every reachable state a caller blocked in `Run` on its
future does not own the lock, and a caller blocked in `Flush` on `done` does
own it (`Flush` unlocks only when it returns). -/
theorem lock_discipline_of_waits (s : State) (hs : Reachable s) :
    (∀ t f, s.threads[t]? = some (.Run_wait f) → s.b.lock ≠ some t) ∧
    (∀ t d, s.threads[t]? = some (.Flush_wait d) → s.b.lock = some t) := by
  have hi := reachable_lockInv s hs
  refine ⟨?_, ?_⟩
  · intro t f ht hl
    obtain ⟨th, h1, h2⟩ := (hi t).1 hl
    rw [ht] at h1
    cases h1
    cases h2
  · intro t d ht
    exact (hi t).2 ⟨_, ht, rfl⟩

/-- Witness for C10 as amended: in `flushWaiting` the lock belongs to the caller
of `Flush` (goroutine 3), not to the caller of `Run` (goroutine 0). -/
theorem lock_discipline_of_waits_witness :
    Reachable flushWaiting ∧ flushWaiting.b.lock ≠ some 0 ∧ flushWaiting.b.lock = some 3 := by
  have hr : Reachable flushWaiting :=
    ⟨50, okWork, none, [.callRun 1, .sched 0, .sched 0, .sched 1, .callFlush, .sched 3], rfl⟩
  exact ⟨hr, (lock_discipline_of_waits flushWaiting hr).1 0 0 rfl,
    (lock_discipline_of_waits flushWaiting hr).2 3 (some 0) rfl⟩

end batcher
